import Mathlib

/-!
# vl_vector: a shallow embedding of `vl_vector.hpp`

The container keeps its elements either in a fixed block inside the object
(`v_stack_data`, `static_capacity` slots) or in a separately allocated block
(`v_heap_data`, `v_capacity` slots); `is_on_heap` says which block is live.

Conventions of the embedding.

* A storage block is a list of slots.  A slot is `Option α`: `none` is a slot
  whose value is indeterminate (fresh from `new T[n]`, or a member array that
  was never written).
* An iterator is the offset of its pointer from `data ()`.
* An operation returns `none` when the C++ code would leave the block it works
  on: a read or a write at an offset that is not a slot of the block, or a
  pointer moved before slot 0.  Every other path returns `some`.
* `size_t` is `Nat`: no block of `2^64 / 3` elements exists, so the products
  formed by `cap_c` do not wrap.
-/

namespace VlVector

/-- Storage block: a list of slots, `none` being an indeterminate value. -/
abbrev Block (α : Type) := List (Option α)

/-- The default `static_capacity` (`#define STATIC_CAPACITY 16`). -/
def STATIC_CAPACITY : Nat := 16

/-- Data members of `vl_vector<T, static_capacity>`.  `v_heap_data` is the
block the pointer designates; a null or released pointer is the block `[]`. -/
structure vl_vector (α : Type) (static_capacity : Nat) where
  v_size : Nat
  v_capacity : Nat
  v_stack_data : Block α
  v_heap_data : Block α
  is_on_heap : Bool
deriving DecidableEq, Repr

variable {α : Type} {sc : Nat}

/-- Read of `blk[i]`; `none` outside the block. -/
def load (blk : Block α) (i : Nat) : Option (Option α) :=
  blk[i]?

/-- Write `blk[i] = x`; `none` outside the block. -/
def store (blk : Block α) (i : Nat) (x : Option α) : Option (Block α) :=
  if i < blk.length then some (blk.set i x) else none

/-- Allocation `new T[n]`: a block of `n` indeterminate slots. -/
def new_block (α : Type) (n : Nat) : Block α :=
  List.replicate n none

/-- Library call `std::copy (src, src + n, dst)`: the first `n` slots of `src` overwrite the
first `n` slots of `dst`; both blocks must have them. -/
def std_copy (src : Block α) (n : Nat) (dst : Block α) : Option (Block α) :=
  if n ≤ src.length ∧ n ≤ dst.length then some (src.take n ++ dst.drop n) else none

/-- Default constructor `vl_vector ()`: empty, inline, nothing allocated. -/
def default_ctor (α : Type) (sc : Nat) : vl_vector α sc :=
  { v_size := 0
    v_capacity := sc
    v_stack_data := new_block α sc
    v_heap_data := []
    is_on_heap := false }

/-- Member `size ()`. -/
def size (s : vl_vector α sc) : Nat := s.v_size

/-- Member `capacity ()`. -/
def capacity (s : vl_vector α sc) : Nat := s.v_capacity

/-- Member `data ()`: the live block. -/
def data (s : vl_vector α sc) : Block α :=
  if s.is_on_heap then s.v_heap_data else s.v_stack_data

/-- Writing back through `data ()`: the live block is replaced by `blk`. -/
def set_data (s : vl_vector α sc) (blk : Block α) : vl_vector α sc :=
  if s.is_on_heap then { s with v_heap_data := blk } else { s with v_stack_data := blk }

/-- Member `cap_c (size, k, C)`. -/
def cap_c (size k C : Nat) : Nat :=
  if size + k ≤ C then C else ((size + k) * 3) / 2

/-- Member `expand_capacity (k)`: a fresh heap block of `cap_c` slots receives the
first `v_size` slots of the live block and becomes the live block. -/
def expand_capacity (s : vl_vector α sc) (k : Nat) : Option (vl_vector α sc) :=
  let new_capacity := cap_c s.v_size k s.v_capacity
  let new_data := new_block α new_capacity
  let copied :=
    if s.is_on_heap then std_copy s.v_heap_data s.v_size new_data
    else std_copy s.v_stack_data s.v_size new_data
  copied.map fun blk =>
    { s with v_capacity := new_capacity, is_on_heap := true, v_heap_data := blk }

/-- Member `push_back (value)`. -/
def push_back (s : vl_vector α sc) (value : α) : Option (vl_vector α sc) :=
  match (if s.v_size = s.v_capacity then expand_capacity s 1 else some s) with
  | none => none
  | some s1 =>
    if s1.is_on_heap then
      match store s1.v_heap_data s1.v_size (some value) with
      | none => none
      | some blk => some { s1 with v_heap_data := blk, v_size := s1.v_size + 1 }
    else
      match store s1.v_stack_data s1.v_size (some value) with
      | none => none
      | some blk => some { s1 with v_stack_data := blk, v_size := s1.v_size + 1 }

/-- Tail shift of `insert (position, value)`:
`while (it != position) { *it = *(it - 1); --it; }`.  With `it` at slot 0 and
`position` elsewhere the body reads before the block. -/
def insert_shift (position : Nat) : Nat → Block α → Option (Block α)
  | 0, blk => if 0 = position then some blk else none
  | it + 1, blk =>
    if it + 1 = position then some blk
    else
      match load blk it with
      | none => none
      | some x =>
        match store blk (it + 1) x with
        | none => none
        | some blk1 => insert_shift position it blk1

/-- Member `insert (position, value)`; the result carries the returned iterator.
`std::distance (begin (), position)` and `begin () + shift` are the identity
on offsets. -/
def insert (s : vl_vector α sc) (position : Nat) (value : α) :
    Option (vl_vector α sc × Nat) :=
  match (if s.v_size = s.v_capacity then expand_capacity s 1 else some s) with
  | none => none
  | some s1 =>
    match insert_shift position s1.v_size (data s1) with
    | none => none
    | some blk =>
      match store blk position (some value) with
      | none => none
      | some blk1 => some ({ set_data s1 blk1 with v_size := s1.v_size + 1 }, position)

/-- Tail shift of the range `insert`:
`while (end_i != position) { *end_i = *(end_i - range); --end_i; }`. -/
def insert_range_shift (position range : Nat) : Nat → Block α → Option (Block α)
  | 0, blk => if 0 = position then some blk else none
  | end_i + 1, blk =>
    if end_i + 1 = position then some blk
    else if range ≤ end_i + 1 then
      match load blk (end_i + 1 - range) with
      | none => none
      | some x =>
        match store blk (end_i + 1) x with
        | none => none
        | some blk1 => insert_range_shift position range end_i blk1
    else none

/-- Copy loop of the range `insert`:
`while (first != last) { *position = *first; ++position; ++first; ++v_size; }`.
The source range is the list of its values; the result is the block, the final
`position` and the final `v_size`. -/
def insert_range_copy : List α → Nat → Nat → Block α → Option (Block α × Nat × Nat)
  | [], position, v_size, blk => some (blk, position, v_size)
  | x :: rest, position, v_size, blk =>
    match store blk position (some x) with
    | none => none
    | some blk1 => insert_range_copy rest (position + 1) (v_size + 1) blk1

/-- Member `insert (position, first, last)`, the source range `[first, last)` given by
its values; the result carries the returned iterator. -/
def insert_range (s : vl_vector α sc) (position : Nat) (src : List α) :
    Option (vl_vector α sc × Nat) :=
  let range := src.length
  match (if s.v_size + range > s.v_capacity then expand_capacity s range else some s) with
  | none => none
  | some s1 =>
    match insert_range_shift position range s1.v_size (data s1) with
    | none => none
    | some blk =>
      match insert_range_copy src position s1.v_size blk with
      | none => none
      | some (blk1, position1, v_size1) =>
        some ({ set_data s1 blk1 with v_size := v_size1 }, position1)

/-- Member `pop_back ()`.  `temp_data` is a fresh array of `static_capacity` slots. -/
def pop_back (s : vl_vector α sc) : Option (vl_vector α sc) :=
  if s.v_size > 0 then
    let s1 : vl_vector α sc := { s with v_size := s.v_size - 1 }
    if s1.is_on_heap then
      if s1.v_size ≤ sc then
        match std_copy s1.v_heap_data s1.v_size (new_block α sc) with
        | none => none
        | some temp_data =>
          match std_copy temp_data s1.v_size s1.v_stack_data with
          | none => none
          | some stack =>
            some { s1 with v_stack_data := stack, v_heap_data := [],
                           v_capacity := sc, is_on_heap := false }
      else some s1
    else some s1
  else some s

/-- Read at a signed offset; `none` before slot 0 and past the block. -/
def load_at (blk : Block α) (i : Int) : Option (Option α) :=
  if 0 ≤ i then load blk i.toNat else none

/-- Loop of `erase (position)`:
`while (it != end () - 1) { *it = *(it + 1); ++it; }`, `target` being the
offset of `end () - 1`.  The iterator only moves up, so the loop has left the
block after `blk.length` rounds: that is the bound `n` it is called with. -/
def erase_shift (target : Int) : Nat → Nat → Block α → Option (Block α)
  | 0, it, blk => if (it : Int) = target then some blk else none
  | n + 1, it, blk =>
    if (it : Int) = target then some blk
    else
      match load blk (it + 1) with
      | none => none
      | some x =>
        match store blk it x with
        | none => none
        | some blk1 => erase_shift target n (it + 1) blk1

/-- Member `erase (position)`; the result carries the returned iterator. -/
def erase (s : vl_vector α sc) (position : Nat) : Option (vl_vector α sc × Nat) :=
  match erase_shift ((s.v_size : Int) - 1) (data s).length position (data s) with
  | none => none
  | some blk => some ({ set_data s blk with v_size := s.v_size - 1 }, position)

/-- Loop of `erase (first, last)`:
`while (it != end () - range) { *it = *(it + range); ++it; }`, `target` being
the offset of `end () - range`; bounded like `erase_shift`. -/
def erase_range_shift (target range : Int) : Nat → Nat → Block α → Option (Block α)
  | 0, it, blk => if (it : Int) = target then some blk else none
  | n + 1, it, blk =>
    if (it : Int) = target then some blk
    else
      match load_at blk (it + range) with
      | none => none
      | some x =>
        match store blk it x with
        | none => none
        | some blk1 => erase_range_shift target range n (it + 1) blk1

/-- Member `erase (first, last)`; the result carries the returned iterator. -/
def erase_range (s : vl_vector α sc) (first last : Nat) : Option (vl_vector α sc × Nat) :=
  let range : Int := (last : Int) - first
  match erase_range_shift ((s.v_size : Int) - range) range (data s).length first (data s) with
  | none => none
  | some blk => some ({ set_data s blk with v_size := ((s.v_size : Int) - range).toNat }, first)

/-- Member `clear ()`. -/
def clear (s : vl_vector α sc) : vl_vector α sc :=
  let s1 : vl_vector α sc :=
    if s.is_on_heap then { s with v_heap_data := [], is_on_heap := false, v_capacity := sc }
    else s
  { s1 with v_size := 0 }

/-- Storage mode of the data model: `true` is Heap, `false` is Inline. -/
def on_heap (s : vl_vector α sc) : Bool := s.is_on_heap

/-- The element sequence: slots `[0, v_size)` of the live block. -/
def elems (s : vl_vector α sc) : Block α :=
  (data s).take s.v_size

/-- Representation invariant: `v_size ≤ v_capacity`, the member array has
`static_capacity` slots, the heap block has `v_capacity` slots when it is live,
and `v_capacity = static_capacity` when the member array is live. -/
def Valid (s : vl_vector α sc) : Prop :=
  s.v_size ≤ s.v_capacity ∧ s.v_stack_data.length = sc ∧
    (if s.is_on_heap then s.v_heap_data.length = s.v_capacity else s.v_capacity = sc)

instance (s : vl_vector α sc) : Decidable (Valid s) := by
  unfold Valid; infer_instance

/-- Outcome of the checked access `at (index)`: the exception
`std::out_of_range`, a reference to a slot (given by the slot's content), or an
access outside the block. -/
inductive at_result (α : Type) where
  | out_of_range : at_result α
  | slot (x : Option α) : at_result α
  | outside : at_result α
deriving DecidableEq, Repr

/-- Member `at (index)`.  The body assigns no data member: the container comes
back as it was, next to the outcome. -/
def at_ (s : vl_vector α sc) (index : Nat) : vl_vector α sc × at_result α :=
  if index ≥ s.v_size then (s, at_result.out_of_range)
  else if s.is_on_heap then
    match load s.v_heap_data index with
    | none => (s, at_result.outside)
    | some x => (s, at_result.slot x)
  else
    match load s.v_stack_data index with
    | none => (s, at_result.outside)
    | some x => (s, at_result.slot x)

/-- Member `operator[] (index)`: unchecked access to the live block. -/
def operator_index (s : vl_vector α sc) (index : Nat) : Option (Option α) :=
  if s.is_on_heap then load s.v_heap_data index else load s.v_stack_data index

/-- Loop of `operator==`:
`for (i = 0; i < v_size; ++i) if (at (i) != other.at (i)) return false;` with
`n` rounds left at index `i`.  Slots are compared as slots.  The result is
`none` when an `at` call does not hand back a slot. -/
def operator_eq_loop [DecidableEq α] (a b : vl_vector α sc) : Nat → Nat → Option Bool
  | 0, _ => some true
  | n + 1, i =>
    match (at_ a i).2, (at_ b i).2 with
    | at_result.slot x, at_result.slot y =>
      if x ≠ y then some false else operator_eq_loop a b n (i + 1)
    | _, _ => none

/-- Member `operator== (other)`. -/
def operator_eq [DecidableEq α] (a b : vl_vector α sc) : Option Bool :=
  if a.v_size ≠ b.v_size then some false else operator_eq_loop a b a.v_size 0

/-- Member `operator!= (other)`: `!(*this == other)`. -/
def operator_ne [DecidableEq α] (a b : vl_vector α sc) : Option Bool :=
  (operator_eq a b).map fun r => !r

/-- Member `operator= (other)`.  `same_object` is the outcome of the address
test `this != &other` (true when `other` is `*this`).  The result is the pair
of `*this` and `other` after the call. -/
def operator_assign (this other : vl_vector α sc) (same_object : Bool) :
    Option (vl_vector α sc × vl_vector α sc) :=
  if same_object then some (this, this)
  else
    let released : Block α := if this.is_on_heap then [] else this.v_heap_data
    if other.is_on_heap then
      match std_copy other.v_heap_data other.v_size (new_block α other.v_capacity) with
      | none => none
      | some blk =>
        some (⟨other.v_size, other.v_capacity, this.v_stack_data, blk, true⟩, other)
    else
      match std_copy other.v_stack_data other.v_size this.v_stack_data with
      | none => none
      | some blk =>
        some (⟨other.v_size, other.v_capacity, blk, released, false⟩, other)

/-- Copy constructor `vl_vector (other)`. -/
def copy_ctor (other : vl_vector α sc) : Option (vl_vector α sc) :=
  if other.is_on_heap then
    match std_copy other.v_heap_data other.v_size (new_block α other.v_capacity) with
    | none => none
    | some blk => some ⟨other.v_size, other.v_capacity, new_block α sc, blk, true⟩
  else
    match std_copy other.v_stack_data other.v_size (new_block α sc) with
    | none => none
    | some blk => some ⟨other.v_size, other.v_capacity, blk, [], false⟩

/-- Successive `push_back` calls, in list order. -/
def push_back_all (s : vl_vector α sc) : List α → Option (vl_vector α sc)
  | [] => some s
  | x :: xs => (push_back s x).bind fun s1 => push_back_all s1 xs

/-- Sequence constructor `vl_vector (first, last)`, the source range given by
its values: the fields are initialised, the block is expanded once when the
range is longer than `static_capacity`, then every value is pushed. -/
def range_ctor (sc : Nat) (src : List α) : Option (vl_vector α sc) :=
  let s0 : vl_vector α sc := ⟨0, sc, new_block α sc, [], false⟩
  let range := src.length
  match (if s0.v_size + range > sc then expand_capacity s0 range else some s0) with
  | none => none
  | some s1 => push_back_all s1 src

/-- Loop of the single-value constructor:
`for (i = 0; i < count; ++i) push_back (v);` with `n` rounds left. -/
def count_ctor_loop (v : α) : Nat → vl_vector α sc → Option (vl_vector α sc)
  | 0, s => some s
  | n + 1, s => (push_back s v).bind fun s1 => count_ctor_loop v n s1

/-- Single-value constructor `vl_vector (count, v)`. -/
def count_ctor (sc : Nat) (count : Nat) (v : α) : Option (vl_vector α sc) :=
  count_ctor_loop v count (⟨0, sc, new_block α sc, [], false⟩ : vl_vector α sc)

/-- Initializer-list constructor `vl_vector (in_l)`. -/
def list_ctor (sc : Nat) (in_l : List α) : Option (vl_vector α sc) :=
  push_back_all (⟨0, sc, new_block α sc, [], false⟩ : vl_vector α sc) in_l

/-- Data-model invariant of the container: `size ≤ capacity`, an inline
container has capacity `static_capacity`, a heap container has at least that. -/
def Inv (s : vl_vector α sc) : Prop :=
  s.v_size ≤ s.v_capacity ∧ (s.is_on_heap = false → s.v_capacity = sc) ∧
    (s.is_on_heap = true → sc ≤ s.v_capacity)

instance (s : vl_vector α sc) : Decidable (Inv s) := by
  unfold Inv; infer_instance

/-- Mode invariant: the heap block is live exactly when the size exceeds
`static_capacity`. -/
def ModeInv (s : vl_vector α sc) : Prop :=
  s.is_on_heap = true ↔ sc < s.v_size

instance (s : vl_vector α sc) : Decidable (ModeInv s) := by
  unfold ModeInv; infer_instance

/-- Successive `pop_back` calls. -/
def pop_back_n (s : vl_vector α sc) : Nat → Option (vl_vector α sc)
  | 0 => some s
  | n + 1 => (pop_back s).bind fun s1 => pop_back_n s1 n

/-- The container holding `xs`, built by `push_back` from the empty one. -/
def of_list (sc : Nat) (xs : List α) : Option (vl_vector α sc) :=
  push_back_all (default_ctor α sc) xs

/-- Containers reachable from the empty container by `push_back`, `pop_back`,
the single `insert` at an offset `i ≤ size`, and `clear`. -/
inductive Reachable : vl_vector α sc → Prop where
  | init : Reachable (default_ctor α sc)
  | push_back {s s2 : vl_vector α sc} (v : α) :
      Reachable s → push_back s v = some s2 → Reachable s2
  | pop_back {s s2 : vl_vector α sc} :
      Reachable s → pop_back s = some s2 → Reachable s2
  | insert {s s2 : vl_vector α sc} (i p : Nat) (v : α) :
      Reachable s → i ≤ s.v_size → insert s i v = some (s2, p) → Reachable s2
  | clear {s : vl_vector α sc} : Reachable s → Reachable (clear s)

/-! ## Storage blocks -/

theorem store_eq {blk : Block α} {i : Nat} (x : Option α) (h : i < blk.length) :
    store blk i x = some (blk.set i x) := by
  simp [store, h]

theorem load_eq {blk : Block α} {i : Nat} (h : i < blk.length) :
    load blk i = some (blk.get ⟨i, h⟩) := by
  simp [load, List.getElem?_eq_getElem h]

theorem std_copy_eq {src dst : Block α} {n : Nat} (h1 : n ≤ src.length)
    (h2 : n ≤ dst.length) : std_copy src n dst = some (src.take n ++ dst.drop n) := by
  simp [std_copy, h1, h2]

theorem take_set_succ (l : Block α) (n : Nat) (x : Option α) (h : n < l.length) :
    (l.set n x).take (n + 1) = l.take n ++ [x] := by
  rw [List.take_succ, List.getElem?_set_self h]
  congr 1
  apply List.ext_getElem?
  intro j
  rw [List.getElem?_take, List.getElem?_take]
  split
  · rw [List.getElem?_set_ne (by omega)]
  · rfl

/-! ## The representation invariant -/

theorem data_length {s : vl_vector α sc} (h : Valid s) : (data s).length = s.v_capacity := by
  obtain ⟨_, h2, h3⟩ := h
  unfold data
  cases hm : s.is_on_heap <;> simp [hm] at h3 ⊢ <;> omega

theorem elems_length {s : vl_vector α sc} (h : Valid s) : (elems s).length = s.v_size := by
  have := data_length h
  have := h.1
  simp [elems]
  omega

theorem valid_default_ctor (α : Type) (sc : Nat) : Valid (default_ctor α sc) := by
  simp [Valid, default_ctor, new_block]

/-! ## Growth -/

theorem expand_capacity_spec (s : vl_vector α sc) (k : Nat) (h : Valid s)
    (hk : s.v_capacity < s.v_size + k) :
    ∃ s1, expand_capacity s k = some s1 ∧ Valid s1 ∧ s1.v_size = s.v_size ∧
      s1.v_capacity = (s.v_size + k) * 3 / 2 ∧ s1.is_on_heap = true ∧
      elems s1 = elems s ∧ s1.v_stack_data = s.v_stack_data := by
  have hlen := data_length h
  obtain ⟨h1, h2, h3⟩ := h
  have hcap : cap_c s.v_size k s.v_capacity = (s.v_size + k) * 3 / 2 := by
    simp [cap_c]; omega
  have hge : s.v_size ≤ (s.v_size + k) * 3 / 2 := by omega
  have hcopy : (if s.is_on_heap then
        std_copy s.v_heap_data s.v_size (new_block α ((s.v_size + k) * 3 / 2))
      else std_copy s.v_stack_data s.v_size (new_block α ((s.v_size + k) * 3 / 2)))
      = some ((data s).take s.v_size ++ (new_block α ((s.v_size + k) * 3 / 2)).drop s.v_size) := by
    unfold data at hlen ⊢
    cases hm : s.is_on_heap <;> simp only [hm, Bool.false_eq_true, if_false, if_true] at hlen ⊢ <;>
      exact std_copy_eq (by omega) (by simp [new_block]; omega)
  refine ⟨⟨s.v_size, (s.v_size + k) * 3 / 2, s.v_stack_data,
      (data s).take s.v_size ++ (new_block α ((s.v_size + k) * 3 / 2)).drop s.v_size, true⟩,
    by simp only [expand_capacity, hcap, hcopy, Option.map_some'], ?_, rfl, rfl, rfl, ?_, rfl⟩
  · refine ⟨hge, h2, ?_⟩
    simp [new_block]
    omega
  · unfold data at hlen
    simp only [elems, data, if_true]
    rw [List.take_append_of_le_length (by simp; omega), List.take_take]
    simp

theorem reserve_spec (s : vl_vector α sc) (k : Nat) (c : Prop) [Decidable c] (h : Valid s)
    (hc : c ↔ s.v_capacity < s.v_size + k) :
    ∃ s1, (if c then expand_capacity s k else some s) = some s1 ∧ Valid s1 ∧
      s1.v_size = s.v_size ∧ s.v_size + k ≤ s1.v_capacity ∧ elems s1 = elems s ∧
      s.v_capacity ≤ s1.v_capacity ∧
      (c → s1.is_on_heap = true ∧ s1.v_capacity = (s.v_size + k) * 3 / 2) ∧
      (¬ c → s1 = s) := by
  by_cases hcc : c
  · obtain ⟨s1, e1, v1, z1, c1, m1, l1, -⟩ := expand_capacity_spec s k h (hc.mp hcc)
    have := hc.mp hcc
    exact ⟨s1, by simp [hcc, e1], v1, z1, by omega, l1, by omega, fun _ => ⟨m1, c1⟩,
      fun hn => absurd hcc hn⟩
  · have : ¬ s.v_capacity < s.v_size + k := fun hlt => hcc (hc.mpr hlt)
    exact ⟨s, by simp [hcc], h, rfl, by omega, rfl, le_refl _, fun hy => absurd hy hcc,
      fun _ => rfl⟩

/-! ## push_back -/

theorem push_back_core (s : vl_vector α sc) (v : α) (h : Valid s) :
    ∃ s1 s2, (if s.v_size = s.v_capacity then expand_capacity s 1 else some s) = some s1 ∧
      push_back s v = some s2 ∧ Valid s2 ∧ s2.v_size = s.v_size + 1 ∧
      elems s2 = elems s ++ [some v] ∧ s2.v_capacity = s1.v_capacity ∧
      s2.is_on_heap = s1.is_on_heap ∧
      (s.v_size = s.v_capacity → s1.is_on_heap = true ∧ s1.v_capacity = (s.v_size + 1) * 3 / 2) ∧
      (s.v_size ≠ s.v_capacity → s1 = s) := by
  have hsz := h.1
  obtain ⟨s1, e1, v1, z1, c1, l1, -, g1, n1⟩ :=
    reserve_spec s 1 (s.v_size = s.v_capacity) h (by omega)
  have hlen := data_length v1
  obtain ⟨w1, w2, w3⟩ := v1
  unfold push_back
  rw [e1]
  simp only
  unfold data at hlen
  cases hm : s1.is_on_heap
  · simp only [hm, Bool.false_eq_true, if_false] at hlen w3 ⊢
    rw [store_eq _ (by omega)]
    refine ⟨s1, _, rfl, rfl, ⟨by simp; omega, by simpa using w2, by simp [hm, w3]⟩,
      by simp [z1], ?_, rfl, by simp [hm], g1, n1⟩
    rw [← l1]
    simp only [elems, data, hm, Bool.false_eq_true, if_false]
    exact take_set_succ _ _ _ (by omega)
  · simp only [hm, if_true] at hlen w3 ⊢
    rw [store_eq _ (by omega)]
    refine ⟨s1, _, rfl, rfl, ⟨by simp; omega, by simpa using w2, by simp [hm, w3]⟩,
      by simp [z1], ?_, rfl, by simp [hm], g1, n1⟩
    rw [← l1]
    simp only [elems, data, hm, if_true]
    exact take_set_succ _ _ _ (by omega)

/-! ## pop_back -/

theorem dropLast_take (l : Block α) (n : Nat) (h : n ≤ l.length) (hn : 0 < n) :
    (l.take n).dropLast = l.take (n - 1) := by
  rw [List.dropLast_eq_take, List.take_take, List.length_take]
  congr 1
  omega

theorem pop_back_demote (s : vl_vector α sc) (h : Valid s) (hpos : 0 < s.v_size)
    (hm : s.is_on_heap = true) (hle : s.v_size - 1 ≤ sc) :
    pop_back s = some ⟨s.v_size - 1, sc,
      s.v_heap_data.take (s.v_size - 1) ++ s.v_stack_data.drop (s.v_size - 1), [], false⟩ := by
  obtain ⟨h1, h2, h3⟩ := h
  simp only [hm, if_true] at h3
  have c1 : std_copy s.v_heap_data (s.v_size - 1) (new_block α sc)
      = some (s.v_heap_data.take (s.v_size - 1) ++ (new_block α sc).drop (s.v_size - 1)) :=
    std_copy_eq (by omega) (by simp [new_block]; omega)
  have c2 : std_copy (s.v_heap_data.take (s.v_size - 1) ++ (new_block α sc).drop (s.v_size - 1))
      (s.v_size - 1) s.v_stack_data
      = some (s.v_heap_data.take (s.v_size - 1) ++ s.v_stack_data.drop (s.v_size - 1)) := by
    rw [std_copy_eq (by simp [new_block]; omega) (by omega)]
    rw [List.take_append_of_le_length (by simp; omega), List.take_take]
    simp
  simp only [pop_back, hpos, gt_iff_lt, if_true, hm, hle, c1, c2]

/-! ## Lists with one element inserted, or a segment removed -/

theorem getElem?_insert_at {β : Type} (xs : List β) (p : Nat) (x : β) (hp : p ≤ xs.length)
    (j : Nat) :
    (xs.take p ++ [x] ++ xs.drop p)[j]? =
      if j < p then xs[j]? else if j = p then some x else xs[j - 1]? := by
  have hlen : (xs.take p).length = p := by simp; omega
  rcases Nat.lt_trichotomy j p with hj | hj | hj
  · rw [List.append_assoc, List.getElem?_append_left (by omega), if_pos hj,
      List.getElem?_take_of_lt hj]
  · subst hj
    rw [List.append_assoc, List.getElem?_append_right (by omega), hlen]
    simp
  · obtain ⟨k, rfl⟩ : ∃ k, j = p + 1 + k := ⟨j - (p + 1), by omega⟩
    rw [List.getElem?_append_right (by simp; omega)]
    have h1 : ¬ (p + 1 + k < p) := by omega
    have h2 : ¬ (p + 1 + k = p) := by omega
    simp only [h1, h2, if_false, List.length_append, hlen, List.length_singleton,
      List.getElem?_drop]
    congr 1
    omega

theorem getElem?_remove_segment {β : Type} (xs : List β) (f l : Nat) (hf : f ≤ xs.length)
    (j : Nat) :
    (xs.take f ++ xs.drop l)[j]? = if j < f then xs[j]? else xs[l + (j - f)]? := by
  have hlen : (xs.take f).length = f := by simp; omega
  by_cases hj : j < f
  · rw [List.getElem?_append_left (by omega), if_pos hj, List.getElem?_take_of_lt hj]
  · rw [List.getElem?_append_right (by omega), if_neg hj, hlen, List.getElem?_drop]

/-! ## insert -/

theorem insert_shift_spec (p : Nat) : ∀ (n : Nat) (blk : Block α), p ≤ n → n < blk.length →
    ∃ r, insert_shift p n blk = some r ∧ r.length = blk.length ∧
      ∀ j, r[j]? = if p < j ∧ j ≤ n then blk[j - 1]? else blk[j]? := by
  intro n
  induction n with
  | zero =>
    intro blk hp _
    have : p = 0 := by omega
    subst this
    refine ⟨blk, by simp [insert_shift], rfl, fun j => ?_⟩
    have : ¬ (0 < j ∧ j ≤ 0) := by omega
    rw [if_neg this]
  | succ n ih =>
    intro blk hp hn
    by_cases hpn : n + 1 = p
    · refine ⟨blk, by simp [insert_shift, hpn], rfl, fun j => ?_⟩
      have : ¬ (p < j ∧ j ≤ n + 1) := by omega
      simp [this]
    · have hn' : n < blk.length := by omega
      obtain ⟨r, e, hl, hr⟩ := ih (blk.set (n + 1) (blk.get ⟨n, hn'⟩)) (by omega) (by simpa using hn')
      refine ⟨r, ?_, by simpa using hl, fun j => ?_⟩
      · simp only [insert_shift, hpn, if_false, load_eq hn', store_eq _ hn, e]
      · rw [hr j]
        by_cases c1 : p < j ∧ j ≤ n
        · have c2 : p < j ∧ j ≤ n + 1 := by omega
          rw [if_pos c1, if_pos c2, List.getElem?_set_ne (by omega)]
        · rw [if_neg c1]
          by_cases c3 : j = n + 1
          · subst c3
            have c2 : p < n + 1 ∧ n + 1 ≤ n + 1 := by omega
            rw [if_pos c2, List.getElem?_set_self hn]
            simp [List.getElem?_eq_getElem hn']
          · have c2 : ¬ (p < j ∧ j ≤ n + 1) := by omega
            rw [if_neg c2, List.getElem?_set_ne (by omega)]

/-! ## Writing the live block back -/

theorem data_set_data (s : vl_vector α sc) (blk : Block α) (n : Nat) :
    data ({ set_data s blk with v_size := n } : vl_vector α sc) = blk := by
  unfold data set_data
  cases hm : s.is_on_heap <;> simp [hm]

theorem mode_set_data (s : vl_vector α sc) (blk : Block α) (n : Nat) :
    ({ set_data s blk with v_size := n } : vl_vector α sc).is_on_heap = s.is_on_heap ∧
    ({ set_data s blk with v_size := n } : vl_vector α sc).v_capacity = s.v_capacity := by
  unfold set_data
  cases hm : s.is_on_heap <;> simp [hm]

theorem valid_set_data (s : vl_vector α sc) (blk : Block α) (n : Nat) (h : Valid s)
    (hl : blk.length = (data s).length) (hn : n ≤ s.v_capacity) :
    Valid ({ set_data s blk with v_size := n } : vl_vector α sc) := by
  obtain ⟨h1, h2, h3⟩ := h
  unfold data at hl
  unfold Valid set_data
  cases hm : s.is_on_heap <;> simp [hm] at h3 hl ⊢
  · exact ⟨hn, by omega, h3⟩
  · exact ⟨hn, h2, by omega⟩

theorem elems_set_data (s : vl_vector α sc) (blk : Block α) (n : Nat) :
    elems ({ set_data s blk with v_size := n } : vl_vector α sc) = blk.take n := by
  have hd := data_set_data s blk n
  unfold elems
  rw [hd]

theorem insert_core (s : vl_vector α sc) (i : Nat) (v : α) (h : Valid s) (hi : i ≤ s.v_size) :
    ∃ s1 s2, (if s.v_size = s.v_capacity then expand_capacity s 1 else some s) = some s1 ∧
      insert s i v = some (s2, i) ∧ Valid s2 ∧ s2.v_size = s.v_size + 1 ∧
      elems s2 = (elems s).take i ++ [some v] ++ (elems s).drop i ∧
      s2.v_capacity = s1.v_capacity ∧ s2.is_on_heap = s1.is_on_heap ∧
      (s.v_size = s.v_capacity → s1.is_on_heap = true ∧ s1.v_capacity = (s.v_size + 1) * 3 / 2) ∧
      (s.v_size ≠ s.v_capacity → s1 = s) := by
  have hsz := h.1
  obtain ⟨s1, e1, v1, z1, c1, l1, -, g1, n1⟩ :=
    reserve_spec s 1 (s.v_size = s.v_capacity) h (by omega)
  have hlen := data_length v1
  obtain ⟨r, er, hrl, hr⟩ := insert_shift_spec i s1.v_size (data s1) (by omega) (by omega)
  have est : store r i (some v) = some (r.set i (some v)) := store_eq _ (by omega)
  obtain ⟨m2, c2⟩ := mode_set_data s1 (r.set i (some v)) (s1.v_size + 1)
  refine ⟨s1, { set_data s1 (r.set i (some v)) with v_size := s1.v_size + 1 }, e1, ?_,
    valid_set_data _ _ _ v1 (by simpa using hrl) (by omega), by simp [z1], ?_, c2, m2, g1, n1⟩
  · simp only [insert, e1, er, est]
  · rw [elems_set_data, ← l1]
    apply List.ext_getElem?
    intro j
    have hxl : (elems s1).length = s1.v_size := elems_length v1
    rw [getElem?_insert_at _ _ _ (by omega), List.getElem?_take, List.getElem?_set, hr j]
    simp only [elems, List.getElem?_take]
    rcases Nat.lt_trichotomy j i with hj | hj | hj
    · have a1 : j < s1.v_size + 1 := by omega
      have a2 : i ≠ j := by omega
      have a3 : ¬ (i < j ∧ j ≤ s1.v_size) := by omega
      have a4 : j < s1.v_size := by omega
      simp only [a1, a2, a3, a4, hj, if_true, if_false]
    · subst hj
      have a1 : j < s1.v_size + 1 := by omega
      have a5 : j < r.length := by omega
      simp only [a1, a5, if_true, lt_irrefl, if_false]
    · have a2 : i ≠ j := by omega
      have a6 : ¬ j < i := by omega
      have a7 : ¬ j = i := by omega
      by_cases a1 : j < s1.v_size + 1
      · have a3 : i < j ∧ j ≤ s1.v_size := by omega
        have a4 : j - 1 < s1.v_size := by omega
        simp only [a1, a2, a3, a4, a6, a7, if_true, if_false, and_self]
      · have a4 : ¬ j - 1 < s1.v_size := by omega
        simp only [a1, a4, a6, a7, if_false]

/-! ## erase -/

theorem load_at_cast (blk : Block α) (a b : Nat) :
    load_at blk ((a : Int) + (b : Int)) = load blk (a + b) := by
  have h0 : (0 : Int) ≤ (a : Int) + (b : Int) := by omega
  have h1 : ((a : Int) + (b : Int)).toNat = a + b := by omega
  simp only [load_at, h0, if_true, h1]

theorem erase_shift_eq_range (target : Int) : ∀ (n it : Nat) (blk : Block α),
    erase_shift target n it blk = erase_range_shift target 1 n it blk := by
  intro n
  induction n with
  | zero => intro it blk; rfl
  | succ n ih =>
    intro it blk
    have hl : load_at blk ((it : Int) + 1) = load blk (it + 1) := by
      simpa using load_at_cast blk it 1
    simp only [erase_shift, erase_range_shift, hl]
    split
    · rfl
    · rcases load blk (it + 1) with _ | x
      · rfl
      · dsimp only
        rcases store blk it x with _ | blk1
        · rfl
        · exact ih (it + 1) blk1

/-- The bound of `erase_range_shift` is never the reason for `none`: once it
covers the slots from `it` to the end of the block, a larger bound gives the
same result. -/
theorem erase_range_shift_bound (target range : Int) : ∀ (n it : Nat) (blk : Block α),
    blk.length ≤ it + n →
    erase_range_shift target range (n + 1) it blk = erase_range_shift target range n it blk := by
  intro n
  induction n with
  | zero =>
    intro it blk hb
    simp only [erase_range_shift]
    split
    · rfl
    · cases load_at blk (it + range) with
      | none => rfl
      | some x =>
        have : ¬ it < blk.length := by omega
        simp [store, this]
  | succ n ih =>
    intro it blk hb
    rw [erase_range_shift, erase_range_shift]
    split
    · rfl
    · cases load_at blk (it + range) with
      | none => rfl
      | some x =>
        by_cases hlt : it < blk.length
        · simp only [store_eq _ hlt]
          exact ih (it + 1) _ (by simp; omega)
        · simp [store, hlt]

theorem erase_range_shift_spec (t range : Nat) : ∀ (n it : Nat) (blk : Block α),
    it ≤ t → t - it ≤ n → t + range ≤ blk.length →
    ∃ r, erase_range_shift (t : Int) (range : Int) n it blk = some r ∧ r.length = blk.length ∧
      ∀ j, r[j]? = if it ≤ j ∧ j < t then blk[j + range]? else blk[j]? := by
  intro n
  induction n with
  | zero =>
    intro it blk h1 h2 _
    have : it = t := by omega
    subst this
    refine ⟨blk, by simp [erase_range_shift], rfl, fun j => ?_⟩
    have : ¬ (it ≤ j ∧ j < it) := by omega
    rw [if_neg this]
  | succ n ih =>
    intro it blk h1 h2 h3
    by_cases heq : it = t
    · subst heq
      refine ⟨blk, by simp [erase_range_shift], rfl, fun j => ?_⟩
      have : ¬ (it ≤ j ∧ j < it) := by omega
      rw [if_neg this]
    · have hlt : it + range < blk.length := by omega
      have hit : it < blk.length := by omega
      have hne : ¬ ((it : Int) = (t : Int)) := by omega
      obtain ⟨r, e, hl, hr⟩ := ih (it + 1) (blk.set it (blk.get ⟨it + range, hlt⟩))
        (by omega) (by omega) (by simpa using h3)
      refine ⟨r, ?_, by simpa using hl, fun j => ?_⟩
      · simp only [erase_range_shift, hne, if_false, load_at_cast, load_eq hlt, store_eq _ hit, e]
      · rw [hr j]
        by_cases c1 : it + 1 ≤ j ∧ j < t
        · have c2 : it ≤ j ∧ j < t := by omega
          rw [if_pos c1, if_pos c2, List.getElem?_set_ne (by omega)]
        · rw [if_neg c1]
          by_cases c3 : j = it
          · subst c3
            have c2 : j ≤ j ∧ j < t := by omega
            rw [if_pos c2, List.getElem?_set_self hit]
            simp [List.getElem?_eq_getElem hlt]
          · have c2 : ¬ (it ≤ j ∧ j < t) := by omega
            rw [if_neg c2, List.getElem?_set_ne (by omega)]

theorem erase_range_core (s : vl_vector α sc) (f l : Nat) (h : Valid s) (hfl : f ≤ l)
    (hl : l ≤ s.v_size) :
    ∃ s2, erase_range s f l = some (s2, f) ∧ Valid s2 ∧ s2.v_size = s.v_size - (l - f) ∧
      elems s2 = (elems s).take f ++ (elems s).drop l ∧
      s2.v_capacity = s.v_capacity ∧ s2.is_on_heap = s.is_on_heap := by
  have hsz := h.1
  have hlen := data_length h
  have ht : ((s.v_size : Int) - ((l : Int) - (f : Int))) = ((s.v_size - (l - f) : Nat) : Int) := by
    omega
  have hrg : ((l : Int) - (f : Int)) = ((l - f : Nat) : Int) := by omega
  obtain ⟨r, er, hrl, hr⟩ := erase_range_shift_spec (s.v_size - (l - f)) (l - f)
    (data s).length f (data s) (by omega) (by omega) (by omega)
  obtain ⟨m2, c2⟩ := mode_set_data s r (s.v_size - (l - f))
  refine ⟨{ set_data s r with v_size := s.v_size - (l - f) }, ?_,
    valid_set_data _ _ _ h hrl (by omega), rfl, ?_, c2, m2⟩
  · simp only [erase_range]
    rw [ht, hrg, er]
    simp
  · rw [elems_set_data]
    apply List.ext_getElem?
    intro j
    have hxl : (elems s).length = s.v_size := elems_length h
    rw [getElem?_remove_segment _ _ _ (by omega), List.getElem?_take, hr j]
    simp only [elems, List.getElem?_take]
    split_ifs <;> first | rfl | (congr 1; omega)

theorem erase_eq_erase_range (s : vl_vector α sc) (i : Nat) :
    erase s i = erase_range s i (i + 1) := by
  have h1 : (((i + 1 : Nat) : Int) - (i : Int)) = 1 := by omega
  have h2 : ((s.v_size : Int) - 1).toNat = s.v_size - 1 := by omega
  simp only [erase, erase_range, erase_shift_eq_range, h1, h2]

/-! ## Range insert -/

theorem insert_range_copy_result : ∀ (ys : List α) (p n : Nat) (blk r : Block α) (p1 n1 : Nat),
    insert_range_copy ys p n blk = some (r, p1, n1) →
    p1 = p + ys.length ∧ n1 = n + ys.length ∧ r.length = blk.length := by
  intro ys
  induction ys with
  | nil =>
    intro p n blk r p1 n1 h
    simp only [insert_range_copy, Option.some.injEq, Prod.mk.injEq] at h
    obtain ⟨rfl, rfl, rfl⟩ := h
    simp
  | cons y ys ih =>
    intro p n blk r p1 n1 h
    by_cases hp : p < blk.length
    · simp only [insert_range_copy, store_eq _ hp] at h
      obtain ⟨a, b, c⟩ := ih _ _ _ _ _ _ h
      refine ⟨by simp; omega, by simp; omega, by simpa using c⟩
    · simp [insert_range_copy, store, hp] at h

theorem insert_range_copy_runs : ∀ (ys : List α) (p n : Nat) (blk : Block α),
    p + ys.length ≤ blk.length → ∃ r, insert_range_copy ys p n blk
      = some (r, p + ys.length, n + ys.length) := by
  intro ys
  induction ys with
  | nil => intro p n blk _; exact ⟨blk, by simp [insert_range_copy]⟩
  | cons y ys ih =>
    intro p n blk h
    simp only [List.length_cons] at h
    obtain ⟨r, e⟩ := ih (p + 1) (n + 1) (blk.set p (some y)) (by simp; omega)
    refine ⟨r, ?_⟩
    simp only [insert_range_copy, store_eq _ (by omega : p < blk.length), e, List.length_cons]
    congr 3 <;> omega

theorem insert_range_copy_content : ∀ (ys : List α) (p n : Nat) (blk r : Block α) (p1 n1 : Nat),
    insert_range_copy ys p n blk = some (r, p1, n1) →
    ∀ j, r[j]? = if p ≤ j ∧ j < p + ys.length then (ys[j - p]?).map some else blk[j]? := by
  intro ys
  induction ys with
  | nil =>
    intro p n blk r p1 n1 h j
    simp only [insert_range_copy, Option.some.injEq, Prod.mk.injEq] at h
    obtain ⟨rfl, -, -⟩ := h
    have : ¬ (p ≤ j ∧ j < p + ([] : List α).length) := by simp
    rw [if_neg this]
  | cons y ys ih =>
    intro p n blk r p1 n1 h j
    by_cases hp : p < blk.length
    · simp only [insert_range_copy, store_eq _ hp] at h
      rw [ih _ _ _ _ _ _ h j]
      simp only [List.length_cons]
      by_cases c1 : p + 1 ≤ j ∧ j < p + 1 + ys.length
      · have c2 : p ≤ j ∧ j < p + (ys.length + 1) := by omega
        obtain ⟨k, hk⟩ : ∃ k, j - p = k + 1 := ⟨j - p - 1, by omega⟩
        have hk2 : j - (p + 1) = k := by omega
        rw [if_pos c1, if_pos c2, hk, hk2, List.getElem?_cons_succ]
      · rw [if_neg c1]
        by_cases c3 : j = p
        · subst c3
          have c2 : j ≤ j ∧ j < j + (ys.length + 1) := by omega
          rw [if_pos c2, List.getElem?_set_self hp]
          simp
        · have c2 : ¬ (p ≤ j ∧ j < p + (ys.length + 1)) := by omega
          rw [if_neg c2, List.getElem?_set_ne (by omega)]
    · simp [insert_range_copy, store, hp] at h

theorem insert_range_shift_length (p range : Nat) : ∀ (n : Nat) (blk b : Block α),
    insert_range_shift p range n blk = some b → b.length = blk.length := by
  intro n
  induction n with
  | zero =>
    intro blk b h
    by_cases hp : 0 = p
    · simp only [insert_range_shift, hp, if_true, Option.some.injEq] at h
      rw [← h]
    · simp [insert_range_shift, hp] at h
  | succ e ih =>
    intro blk b h
    by_cases hp : e + 1 = p
    · simp only [insert_range_shift, hp, if_true, Option.some.injEq] at h
      rw [← h]
    · by_cases hr : range ≤ e + 1
      · simp only [insert_range_shift, hp, hr, if_true, if_false] at h
        rcases hL : load blk (e + 1 - range) with _ | x
        · simp [hL] at h
        · by_cases hs : e + 1 < blk.length
          · simp only [hL, store_eq _ hs] at h
            simpa using ih _ _ h
          · simp [hL, store, hs] at h
      · simp [insert_range_shift, hp, hr] at h

/-- The tail shift of the range insert completes exactly when there is no tail
(`position` is the end) or when `range ≤ position + 1` and slot `end ()` exists. -/
theorem insert_range_shift_runs_iff (p range : Nat) : ∀ (n : Nat) (blk : Block α), p ≤ n →
    ((∃ b, insert_range_shift p range n blk = some b) ↔
      (p = n ∨ (range ≤ p + 1 ∧ n < blk.length))) := by
  intro n
  induction n with
  | zero =>
    intro blk hp
    have : p = 0 := by omega
    subst this
    simp [insert_range_shift]
  | succ e ih =>
    intro blk hp
    by_cases hpe : e + 1 = p
    · subst hpe
      simp [insert_range_shift]
    · have hne : ¬ (p = e + 1) := fun h => hpe h.symm
      by_cases hr : range ≤ e + 1
      · by_cases hs : e + 1 < blk.length
        · have hL : e + 1 - range < blk.length := by omega
          simp only [insert_range_shift, hpe, hr, if_true, if_false, load_eq hL, store_eq _ hs]
          rw [ih _ (by omega)]
          simp only [List.length_set, hne, false_or]
          constructor
          · rintro (h1 | ⟨h1, _⟩)
            · exact ⟨by omega, hs⟩
            · exact ⟨h1, hs⟩
          · rintro ⟨h1, _⟩
            exact Or.inr ⟨h1, by omega⟩
        · constructor
          · rintro ⟨b, hb⟩
            simp only [insert_range_shift, hpe, hr, if_true, if_false] at hb
            rcases hL : load blk (e + 1 - range) with _ | x
            · simp [hL] at hb
            · simp [hL, store, hs] at hb
          · rintro (h1 | ⟨_, h2⟩)
            · exact absurd h1 hne
            · exact absurd h2 hs
      · constructor
        · rintro ⟨b, hb⟩
          simp [insert_range_shift, hpe, hr] at hb
        · rintro (h1 | ⟨h1, _⟩)
          · exact absurd h1 hne
          · omega

theorem insert_range_result (s : vl_vector α sc) (i : Nat) (ys : List α)
    (s2 : vl_vector α sc) (p : Nat) (h : insert_range s i ys = some (s2, p)) :
    p = i + ys.length := by
  simp only [insert_range] at h
  rcases h1 : (if s.v_size + ys.length > s.v_capacity then expand_capacity s ys.length
      else some s) with _ | s1
  · simp [h1] at h
  · rcases h2 : insert_range_shift i ys.length s1.v_size (data s1) with _ | b
    · simp [h1, h2] at h
    · rcases h3 : insert_range_copy ys i s1.v_size b with _ | ⟨r, p1, n1⟩
      · simp [h1, h2, h3] at h
      · simp only [h1, h2, h3, Option.some.injEq, Prod.mk.injEq] at h
        obtain ⟨a, -, -⟩ := insert_range_copy_result _ _ _ _ _ _ _ h3
        omega

theorem insert_range_core (s : vl_vector α sc) (i : Nat) (ys : List α) (h : Valid s)
    (hi : i ≤ s.v_size)
    (hsafe : i = s.v_size ∨ (ys.length ≤ i + 1 ∧ (ys ≠ [] ∨ s.v_size < s.v_capacity))) :
    ∃ s1 s2, (if s.v_size + ys.length > s.v_capacity then expand_capacity s ys.length
        else some s) = some s1 ∧
      insert_range s i ys = some (s2, i + ys.length) ∧ Valid s2 ∧
      s2.v_size = s.v_size + ys.length ∧
      s2.v_capacity = s1.v_capacity ∧ s2.is_on_heap = s1.is_on_heap ∧
      s.v_capacity ≤ s1.v_capacity ∧
      (s.v_capacity < s.v_size + ys.length →
        s1.is_on_heap = true ∧ s1.v_capacity = (s.v_size + ys.length) * 3 / 2) ∧
      (¬ s.v_capacity < s.v_size + ys.length → s1 = s) ∧
      (∀ k, k < ys.length → (elems s2)[i + k]? = (ys[k]?).map some) := by
  have hsz := h.1
  obtain ⟨s1, e1, v1, z1, c1, -, m1, g1, n1⟩ :=
    reserve_spec s ys.length (s.v_size + ys.length > s.v_capacity) h Iff.rfl
  have hlen := data_length v1
  have hpos : ys ≠ [] → 0 < ys.length := fun hne => List.length_pos.mpr hne
  have hsafe1 : i = s1.v_size ∨ (ys.length ≤ i + 1 ∧ s1.v_size < (data s1).length) := by
    rcases hsafe with h0 | ⟨h0, h2 | h2⟩
    · exact Or.inl (by omega)
    · have := hpos h2
      exact Or.inr ⟨h0, by omega⟩
    · exact Or.inr ⟨h0, by omega⟩
  obtain ⟨b, eb⟩ := (insert_range_shift_runs_iff i ys.length s1.v_size (data s1) (by omega)).mpr hsafe1
  have hbl := insert_range_shift_length _ _ _ _ _ eb
  obtain ⟨r, er⟩ := insert_range_copy_runs ys i s1.v_size b (by omega)
  obtain ⟨-, -, hrl⟩ := insert_range_copy_result _ _ _ _ _ _ _ er
  obtain ⟨m2, c2⟩ := mode_set_data s1 r (s1.v_size + ys.length)
  refine ⟨s1, { set_data s1 r with v_size := s1.v_size + ys.length }, e1, ?_,
    valid_set_data _ _ _ v1 (by omega) (by omega), by simp [z1], c2, m2, m1, g1, n1, ?_⟩
  · simp only [insert_range, e1, eb, er]
  · intro k hk
    have c3 : i ≤ i + k ∧ i + k < i + ys.length := by omega
    rw [elems_set_data, List.getElem?_take_of_lt (by omega),
      insert_range_copy_content _ _ _ _ _ _ _ er (i + k), if_pos c3]
    simp

/-- On a valid container and a position `i ≤ size`, the range insert stays
inside the block exactly when `i` is the end, or when the range is no longer
than `i + 1` and slot `end ()` exists (the range is not empty, or the block is
not full). -/
theorem insert_range_runs_iff (s : vl_vector α sc) (i : Nat) (ys : List α) (h : Valid s)
    (hi : i ≤ s.v_size) :
    (∃ r, insert_range s i ys = some r) ↔
      (i = s.v_size ∨ (ys.length ≤ i + 1 ∧ (ys ≠ [] ∨ s.v_size < s.v_capacity))) := by
  constructor
  · rintro ⟨⟨s2, p⟩, hr⟩
    have hsz := h.1
    obtain ⟨s1, e1, v1, z1, c1, -, -, -, n1⟩ :=
      reserve_spec s ys.length (s.v_size + ys.length > s.v_capacity) h Iff.rfl
    have hlen := data_length v1
    simp only [insert_range, e1] at hr
    rcases h2 : insert_range_shift i ys.length s1.v_size (data s1) with _ | b
    · simp [h2] at hr
    · rcases (insert_range_shift_runs_iff i ys.length s1.v_size (data s1) (by omega)).mp ⟨b, h2⟩
        with h0 | ⟨h0, h3⟩
      · exact Or.inl (by omega)
      · refine Or.inr ⟨h0, ?_⟩
        by_cases hy : ys = []
        · right
          subst hy
          have hs1 : s1 = s := n1 (by simp; omega)
          rw [hs1] at h3 hlen
          omega
        · exact Or.inl hy
  · intro hsafe
    obtain ⟨s1, s2, -, e2, -⟩ := insert_range_core s i ys h hi hsafe
    exact ⟨_, e2⟩

/-! ## Invariants along the insertion paths -/

theorem push_back_step (s : vl_vector α sc) (v : α) (h : Valid s) :
    ∃ s2, push_back s v = some s2 ∧ Valid s2 ∧ s2.v_size = s.v_size + 1 ∧
      elems s2 = elems s ++ [some v] ∧
      (¬ s.v_capacity < s.v_size + 1 →
        s2.v_capacity = s.v_capacity ∧ s2.is_on_heap = s.is_on_heap) ∧
      (s.v_capacity < s.v_size + 1 →
        s2.is_on_heap = true ∧ s2.v_capacity = (s.v_size + 1) * 3 / 2) := by
  have hsz := h.1
  obtain ⟨s1, s2, -, e2, v2, z2, l2, c2, m2, g, n⟩ := push_back_core s v h
  refine ⟨s2, e2, v2, z2, l2, ?_, ?_⟩
  · intro hk
    have := n (by omega)
    subst this
    exact ⟨c2, m2⟩
  · intro hk
    obtain ⟨g1, g2⟩ := g (by omega)
    rw [m2, c2]
    exact ⟨g1, g2⟩

/-- An operation that adds `k` elements, keeps capacity and mode when they fit
and otherwise moves to a heap block of `(size + k) * 3 / 2` slots, keeps the
data-model invariant and the mode invariant and does not lower the capacity. -/
theorem inv_after_reserve (s s2 : vl_vector α sc) (k : Nat) (hi : Inv s)
    (hz : s2.v_size = s.v_size + k)
    (hkeep : ¬ s.v_capacity < s.v_size + k →
      s2.v_capacity = s.v_capacity ∧ s2.is_on_heap = s.is_on_heap)
    (hgrow : s.v_capacity < s.v_size + k →
      s2.is_on_heap = true ∧ s2.v_capacity = (s.v_size + k) * 3 / 2) :
    Inv s2 ∧ (ModeInv s → ModeInv s2) ∧ s.v_capacity ≤ s2.v_capacity := by
  obtain ⟨i1, i2, i3⟩ := hi
  by_cases hk : s.v_capacity < s.v_size + k
  · obtain ⟨g1, g2⟩ := hgrow hk
    have hsc : sc ≤ s.v_capacity := by
      cases hm : s.is_on_heap
      · have := i2 hm
        omega
      · exact i3 hm
    refine ⟨⟨by omega, fun hf => ?_, fun _ => by omega⟩, fun _ => ?_, by omega⟩
    · rw [g1] at hf
      exact absurd hf (by decide)
    · unfold ModeInv
      constructor
      · intro _
        omega
      · intro _
        exact g1
  · obtain ⟨k1, k2⟩ := hkeep hk
    refine ⟨⟨by omega, fun hf => ?_, fun ht => ?_⟩, fun hmi => ?_, by omega⟩
    · rw [k2] at hf
      rw [k1]
      exact i2 hf
    · rw [k2] at ht
      rw [k1]
      exact i3 ht
    · unfold ModeInv at hmi ⊢
      rw [k2]
      constructor
      · intro ht
        have := hmi.mp ht
        omega
      · intro hlt
        cases hm : s.is_on_heap
        · have := i2 hm
          omega
        · rfl

theorem push_back_all_spec : ∀ (xs : List α) (s : vl_vector α sc), Valid s → Inv s →
    ∃ s2, push_back_all s xs = some s2 ∧ Valid s2 ∧ Inv s2 ∧ (ModeInv s → ModeInv s2) ∧
      s2.v_size = s.v_size + xs.length ∧ elems s2 = elems s ++ xs.map some ∧
      s.v_capacity ≤ s2.v_capacity ∧
      (s.v_size + xs.length ≤ s.v_capacity →
        s2.v_capacity = s.v_capacity ∧ s2.is_on_heap = s.is_on_heap) := by
  intro xs
  induction xs with
  | nil =>
    intro s hv hi
    exact ⟨s, rfl, hv, hi, fun h => h, by simp, by simp, le_refl _, fun _ => ⟨rfl, rfl⟩⟩
  | cons x xs ih =>
    intro s hv hi
    obtain ⟨s1, e1, v1, z1, l1, k1, g1⟩ := push_back_step s x hv
    obtain ⟨i1, m1, c1⟩ := inv_after_reserve s s1 1 hi z1 k1 g1
    obtain ⟨s2, e2, v2, i2, m2, z2, l2, c2, k2⟩ := ih s1 v1 i1
    refine ⟨s2, by simp [push_back_all, e1, e2], v2, i2, fun h => m2 (m1 h), ?_, ?_, by omega, ?_⟩
    · simp only [List.length_cons]
      omega
    · rw [l2, l1]
      simp
    · intro hfit
      simp only [List.length_cons] at hfit
      obtain ⟨a1, a2⟩ := k1 (by omega)
      obtain ⟨b1, b2⟩ := k2 (by omega)
      exact ⟨by omega, by rw [b2, a2]⟩

theorem count_ctor_loop_eq (v : α) : ∀ (n : Nat) (s : vl_vector α sc),
    count_ctor_loop v n s = push_back_all s (List.replicate n v) := by
  intro n
  induction n with
  | zero => intro s; rfl
  | succ n ih =>
    intro s
    simp only [count_ctor_loop, List.replicate_succ, push_back_all]
    rcases push_back s v with _ | s1
    · rfl
    · exact ih s1

theorem valid_inv_default (α : Type) (sc : Nat) :
    Valid (default_ctor α sc) ∧ Inv (default_ctor α sc) ∧ ModeInv (default_ctor α sc) := by
  refine ⟨valid_default_ctor α sc, ?_, ?_⟩
  · simp [Inv, default_ctor]
  · simp [ModeInv, default_ctor]

/-! ## Constructors -/

theorem list_ctor_eq (sc : Nat) (xs : List α) : list_ctor sc xs = of_list sc xs := rfl

theorem count_ctor_eq (sc : Nat) (count : Nat) (v : α) :
    count_ctor sc count v = of_list sc (List.replicate count v) :=
  count_ctor_loop_eq v count _

theorem of_list_spec (sc : Nat) (xs : List α) :
    ∃ s : vl_vector α sc, of_list sc xs = some s ∧ Valid s ∧ Inv s ∧ ModeInv s ∧
      s.v_size = xs.length ∧ elems s = xs.map some ∧
      (xs.length ≤ sc → s.v_capacity = sc) := by
  obtain ⟨hv, hi, hm⟩ := valid_inv_default α sc
  obtain ⟨s, e, v, i, m, z, l, -, k⟩ := push_back_all_spec xs (default_ctor α sc) hv hi
  refine ⟨s, e, v, i, m hm, by simpa [default_ctor] using z, ?_, fun hle => ?_⟩
  · rw [l]
    simp [elems, default_ctor]
  · exact (k (by simpa [default_ctor] using hle)).1

theorem range_ctor_short (sc : Nat) (xs : List α) (h : xs.length ≤ sc) :
    range_ctor sc xs = of_list sc xs := by
  have : ¬ (0 + xs.length > sc) := by omega
  simp only [range_ctor, this, if_false]
  rfl

theorem range_ctor_long (sc : Nat) (xs : List α) (h : sc < xs.length) :
    ∃ s : vl_vector α sc, range_ctor sc xs = some s ∧ Valid s ∧ Inv s ∧ ModeInv s ∧
      s.v_size = xs.length ∧ elems s = xs.map some ∧
      s.is_on_heap = true ∧ s.v_capacity = xs.length * 3 / 2 := by
  obtain ⟨hv, hi, -⟩ := valid_inv_default α sc
  obtain ⟨s1, e1, v1, z1, c1, m1, l1, -⟩ :=
    expand_capacity_spec (default_ctor α sc) xs.length hv (by simp [default_ctor]; omega)
  have hz1 : s1.v_size = 0 := by simpa [default_ctor] using z1
  have hc1 : s1.v_capacity = xs.length * 3 / 2 := by simpa [default_ctor] using c1
  have i1 : Inv s1 := ⟨by omega, fun hf => by rw [m1] at hf; exact absurd hf (by decide),
    fun _ => by omega⟩
  obtain ⟨s2, e2, v2, i2, -, z2, l2, -, k2⟩ := push_back_all_spec xs s1 v1 i1
  obtain ⟨a1, a2⟩ := k2 (by omega)
  have hgt : (0 + xs.length > sc) := by omega
  refine ⟨s2, ?_, v2, i2, ?_, by omega, ?_, by rw [a2, m1], by omega⟩
  · simp only [range_ctor, hgt, if_true]
    have : expand_capacity (⟨0, sc, new_block α sc, [], false⟩ : vl_vector α sc) xs.length
        = some s1 := e1
    rw [this]
    exact e2
  · unfold ModeInv
    rw [a2, m1]
    simp
    omega
  · rw [l2, l1]
    simp [elems, default_ctor]

/-! ## Element access and equality -/

theorem operator_index_eq (s : vl_vector α sc) (i : Nat) :
    operator_index s i = (data s)[i]? := by
  unfold operator_index data load
  cases s.is_on_heap <;> rfl

theorem at_eq (s : vl_vector α sc) (i : Nat) :
    at_ s i = (s, if i ≥ s.v_size then at_result.out_of_range
      else match (data s)[i]? with
        | none => at_result.outside
        | some x => at_result.slot x) := by
  unfold at_ data load
  by_cases hi : i ≥ s.v_size
  · simp [hi]
  · simp only [hi, if_false]
    cases s.is_on_heap
    · simp only [Bool.false_eq_true, if_false]
      cases s.v_stack_data[i]? <;> rfl
    · simp only [if_true]
      cases s.v_heap_data[i]? <;> rfl

theorem at_slot (s : vl_vector α sc) (i : Nat) (h : Valid s) (hi : i < s.v_size) :
    ∃ x, (at_ s i).2 = at_result.slot x ∧ (data s)[i]? = some x := by
  have hlen := data_length h
  have hsz := h.1
  have hl : i < (data s).length := by omega
  refine ⟨(data s).get ⟨i, hl⟩, ?_, by simp [List.getElem?_eq_getElem hl]⟩
  rw [at_eq]
  have : ¬ i ≥ s.v_size := by omega
  simp [this, List.getElem?_eq_getElem hl]

theorem operator_eq_loop_spec [DecidableEq α] (a b : vl_vector α sc) (ha : Valid a)
    (hb : Valid b) (hab : a.v_size = b.v_size) : ∀ (n i : Nat), i + n = a.v_size →
    ∃ r, operator_eq_loop a b n i = some r ∧
      (r = true ↔ ∀ j, i ≤ j → j < a.v_size → (data a)[j]? = (data b)[j]?) := by
  intro n
  induction n with
  | zero =>
    intro i hi
    refine ⟨true, rfl, ?_⟩
    simp only [true_iff]
    intro j h1 h2
    omega
  | succ n ih =>
    intro i hi
    obtain ⟨x, ex, hx⟩ := at_slot a i ha (by omega)
    obtain ⟨y, ey, hy⟩ := at_slot b i hb (by omega)
    by_cases hxy : x = y
    · obtain ⟨r, er, hr⟩ := ih (i + 1) (by omega)
      refine ⟨r, by simp only [operator_eq_loop, ex, ey, hxy, ne_eq, not_true, if_false, er], ?_⟩
      rw [hr]
      constructor
      · intro hall j h1 h2
        by_cases hji : j = i
        · rw [hji, hx, hy, hxy]
        · exact hall j (by omega) h2
      · intro hall j h1 h2
        exact hall j (by omega) h2
    · refine ⟨false, by simp only [operator_eq_loop, ex, ey, ne_eq, hxy, not_false_eq_true, if_true], ?_⟩
      constructor
      · intro hf
        exact absurd hf (by decide)
      · intro hall
        have := hall i (le_refl _) (by omega)
        rw [hx, hy] at this
        exact absurd (Option.some.inj this) hxy

theorem elems_eq_iff (a b : vl_vector α sc) (hab : a.v_size = b.v_size) :
    elems a = elems b ↔ ∀ j, j < a.v_size → (data a)[j]? = (data b)[j]? := by
  unfold elems
  constructor
  · intro h j hj
    have := congrArg (fun l => l[j]?) h
    simp only [List.getElem?_take] at this
    rw [← hab] at this
    simpa [hj] using this
  · intro h
    apply List.ext_getElem?
    intro j
    rw [List.getElem?_take, List.getElem?_take, ← hab]
    by_cases hj : j < a.v_size
    · simp only [hj, if_true]
      exact h j hj
    · simp only [hj, if_false]

theorem operator_eq_core [DecidableEq α] (a b : vl_vector α sc) (ha : Valid a) (hb : Valid b) :
    ∃ r, operator_eq a b = some r ∧
      (r = true ↔ a.v_size = b.v_size ∧ ∀ j, j < a.v_size → (data a)[j]? = (data b)[j]?) := by
  by_cases hab : a.v_size = b.v_size
  · obtain ⟨r, er, hr⟩ := operator_eq_loop_spec a b ha hb hab a.v_size 0 (by omega)
    refine ⟨r, by simp only [operator_eq, hab, ne_eq, not_true, if_false]; rw [← hab]; exact er, ?_⟩
    rw [hr]
    constructor
    · intro h
      exact ⟨hab, fun j hj => h j (Nat.zero_le _) hj⟩
    · rintro ⟨-, h⟩ j _ hj
      exact h j hj
  · refine ⟨false, by simp [operator_eq, hab], ?_⟩
    constructor
    · intro hf
      exact absurd hf (by decide)
    · rintro ⟨h, -⟩
      exact absurd h hab

/-! ## clear, pop_back, copies -/

theorem clear_core (s : vl_vector α sc) (h : Valid s) :
    Valid (clear s) ∧ (clear s).v_size = 0 ∧ (clear s).is_on_heap = false ∧
      (clear s).v_capacity = sc := by
  obtain ⟨h1, h2, h3⟩ := h
  unfold clear Valid
  cases hm : s.is_on_heap <;> simp [hm] at h3 ⊢
  · exact ⟨h2, h3⟩
  · exact h2

theorem clear_idem (s : vl_vector α sc) : clear (clear s) = clear s := by
  unfold clear
  cases hm : s.is_on_heap <;> simp [hm]

theorem pop_back_step (s : vl_vector α sc) (h : Valid s) :
    ∃ s2, pop_back s = some s2 ∧ Valid s2 ∧ s2.v_size = s.v_size - 1 ∧
      ((s.is_on_heap = true ∧ 0 < s.v_size ∧ s.v_size - 1 ≤ sc) →
        s2.is_on_heap = false ∧ s2.v_capacity = sc) ∧
      (¬ (s.is_on_heap = true ∧ 0 < s.v_size ∧ s.v_size - 1 ≤ sc) →
        s2.is_on_heap = s.is_on_heap ∧ s2.v_capacity = s.v_capacity) := by
  have hv := h
  obtain ⟨h1, h2, h3⟩ := h
  by_cases hd : s.is_on_heap = true ∧ 0 < s.v_size ∧ s.v_size - 1 ≤ sc
  · obtain ⟨hm, hpos, hle⟩ := hd
    refine ⟨_, pop_back_demote s hv hpos hm hle, ⟨by simp; omega, ?_, by simp⟩, rfl,
      fun _ => ⟨rfl, rfl⟩, fun hn => absurd ⟨hm, hpos, hle⟩ hn⟩
    simp only [hm, if_true] at h3
    simp
    omega
  · by_cases hpos : 0 < s.v_size
    · have hcase : s.is_on_heap = false ∨ ¬ s.v_size - 1 ≤ sc := by
        cases hm : s.is_on_heap
        · exact Or.inl rfl
        · exact Or.inr fun hle => hd ⟨hm, hpos, hle⟩
      refine ⟨{ s with v_size := s.v_size - 1 }, ?_, ⟨by simp; omega, h2, h3⟩, rfl,
        fun hy => absurd hy hd, fun _ => ⟨rfl, rfl⟩⟩
      rcases hcase with hm | hgt
      · simp [pop_back, hpos, hm]
      · cases hm : s.is_on_heap
        · simp [pop_back, hpos, hm]
        · simp [pop_back, hpos, hm, hgt]
    · have hz : s.v_size = 0 := by omega
      refine ⟨s, by simp [pop_back, hpos], hv, by omega, fun hy => absurd hy hd,
        fun _ => ⟨rfl, rfl⟩⟩

theorem copy_core (this : Block α) (released : Block α) (src : vl_vector α sc)
    (hs : Valid src) (ht : this.length = sc) :
    ∃ d : vl_vector α sc,
      (if src.is_on_heap then
        match std_copy src.v_heap_data src.v_size (new_block α src.v_capacity) with
        | none => none
        | some blk => some (⟨src.v_size, src.v_capacity, this, blk, true⟩ : vl_vector α sc)
      else
        match std_copy src.v_stack_data src.v_size this with
        | none => none
        | some blk => some (⟨src.v_size, src.v_capacity, blk, released, false⟩ : vl_vector α sc))
        = some d ∧
      Valid d ∧ d.v_size = src.v_size ∧ d.v_capacity = src.v_capacity ∧
      d.is_on_heap = src.is_on_heap ∧ elems d = elems src := by
  obtain ⟨h1, h2, h3⟩ := hs
  cases hm : src.is_on_heap
  · simp only [hm, Bool.false_eq_true, if_false] at h3 ⊢
    rw [std_copy_eq (by omega) (by omega)]
    refine ⟨_, rfl, ⟨h1, ?_, by simp [h3]⟩, rfl, rfl, rfl, ?_⟩
    · simp
      omega
    · simp only [elems, data, hm, Bool.false_eq_true, if_false]
      rw [List.take_append_of_le_length (by simp; omega), List.take_take]
      simp
  · simp only [hm, if_true] at h3 ⊢
    rw [std_copy_eq (by omega) (by simp [new_block]; omega)]
    refine ⟨_, rfl, ⟨h1, ht, ?_⟩, rfl, rfl, rfl, ?_⟩
    · simp [new_block]
      omega
    · simp only [elems, data, hm, if_true]
      rw [List.take_append_of_le_length (by simp; omega), List.take_take]
      simp

theorem operator_assign_core (dst src : vl_vector α sc) (hd : Valid dst) (hs : Valid src) :
    ∃ d, operator_assign dst src false = some (d, src) ∧ Valid d ∧ d.v_size = src.v_size ∧
      d.v_capacity = src.v_capacity ∧ d.is_on_heap = src.is_on_heap ∧
      elems d = elems src := by
  obtain ⟨d, e, v, z, c, m, l⟩ := copy_core dst.v_stack_data
    (if dst.is_on_heap then [] else dst.v_heap_data) src hs hd.2.1
  refine ⟨d, ?_, v, z, c, m, l⟩
  simp only [operator_assign, Bool.false_eq_true, if_false]
  cases hm : src.is_on_heap
  · simp only [hm, Bool.false_eq_true, if_false] at e ⊢
    rcases hc : std_copy src.v_stack_data src.v_size dst.v_stack_data with _ | blk
    · simp [hc] at e
    · simp only [hc, Option.some.injEq] at e ⊢
      rw [e]
  · simp only [hm, if_true] at e ⊢
    rcases hc : std_copy src.v_heap_data src.v_size (new_block α src.v_capacity) with _ | blk
    · simp [hc] at e
    · simp only [hc, Option.some.injEq] at e ⊢
      rw [e]

theorem copy_ctor_core (src : vl_vector α sc) (hs : Valid src) :
    ∃ d, copy_ctor src = some d ∧ Valid d ∧ d.v_size = src.v_size ∧
      d.v_capacity = src.v_capacity ∧ d.is_on_heap = src.is_on_heap ∧
      elems d = elems src := by
  obtain ⟨d, e, v, z, c, m, l⟩ := copy_core (new_block α sc) [] src hs (by simp [new_block])
  exact ⟨d, e, v, z, c, m, l⟩

theorem insert_erase_list {β : Type} (xs : List β) (i : Nat) (x : β) (hi : i ≤ xs.length) :
    (xs.take i ++ [x] ++ xs.drop i).take i ++ (xs.take i ++ [x] ++ xs.drop i).drop (i + 1)
      = xs := by
  have hl : (xs.take i).length = i := by simp; omega
  have hl1 : (xs.take i ++ [x]).length = i + 1 := by simp; omega
  rw [List.append_assoc, List.take_left' hl, ← List.append_assoc, List.drop_left' hl1]
  exact List.take_append_drop i xs

/-! ## The data-model invariant, operation by operation -/

theorem inv_of_fields (s d : vl_vector α sc) (hi : Inv s) (hz : d.v_size = s.v_size)
    (hc : d.v_capacity = s.v_capacity) (hm : d.is_on_heap = s.is_on_heap) : Inv d := by
  unfold Inv at hi ⊢
  rw [hz, hc, hm]
  exact hi

theorem inv_of_shrink (s d : vl_vector α sc) (hi : Inv s) (hz : d.v_size ≤ s.v_size)
    (hc : d.v_capacity = s.v_capacity) (hm : d.is_on_heap = s.is_on_heap) : Inv d := by
  obtain ⟨i1, i2, i3⟩ := hi
  unfold Inv
  rw [hc, hm]
  exact ⟨by omega, i2, i3⟩

theorem insert_step (s : vl_vector α sc) (i : Nat) (v : α) (h : Valid s) (hi : i ≤ s.v_size) :
    ∃ s2, insert s i v = some (s2, i) ∧ Valid s2 ∧ s2.v_size = s.v_size + 1 ∧
      (¬ s.v_capacity < s.v_size + 1 →
        s2.v_capacity = s.v_capacity ∧ s2.is_on_heap = s.is_on_heap) ∧
      (s.v_capacity < s.v_size + 1 →
        s2.is_on_heap = true ∧ s2.v_capacity = (s.v_size + 1) * 3 / 2) := by
  have hsz := h.1
  obtain ⟨s1, s2, -, e2, v2, z2, -, c2, m2, g, n⟩ := insert_core s i v h hi
  refine ⟨s2, e2, v2, z2, ?_, ?_⟩
  · intro hk
    have := n (by omega)
    subst this
    exact ⟨c2, m2⟩
  · intro hk
    obtain ⟨g1, g2⟩ := g (by omega)
    rw [m2, c2]
    exact ⟨g1, g2⟩

theorem insert_range_returned (s s2 : vl_vector α sc) (i p : Nat) (ys : List α) (h : Valid s)
    (hi : i ≤ s.v_size) (hr : insert_range s i ys = some (s2, p)) :
    Valid s2 ∧ s2.v_size = s.v_size + ys.length ∧
      (¬ s.v_capacity < s.v_size + ys.length →
        s2.v_capacity = s.v_capacity ∧ s2.is_on_heap = s.is_on_heap) ∧
      (s.v_capacity < s.v_size + ys.length →
        s2.is_on_heap = true ∧ s2.v_capacity = (s.v_size + ys.length) * 3 / 2) := by
  have hsafe := (insert_range_runs_iff s i ys h hi).mp ⟨_, hr⟩
  obtain ⟨s1, t, -, e2, v2, z2, c2, m2, -, g, n, -⟩ := insert_range_core s i ys h hi hsafe
  rw [e2] at hr
  simp only [Option.some.injEq, Prod.mk.injEq] at hr
  obtain ⟨rfl, -⟩ := hr
  refine ⟨v2, z2, ?_, ?_⟩
  · intro hk
    have := n hk
    subst this
    exact ⟨c2, m2⟩
  · intro hk
    obtain ⟨g1, g2⟩ := g hk
    rw [m2, c2]
    exact ⟨g1, g2⟩

theorem pop_back_inv (s : vl_vector α sc) (h : Valid s) (hi : Inv s) :
    ∃ s2, pop_back s = some s2 ∧ Valid s2 ∧ Inv s2 := by
  obtain ⟨s2, e, v, z, d, k⟩ := pop_back_step s h
  refine ⟨s2, e, v, ?_⟩
  by_cases hd : s.is_on_heap = true ∧ 0 < s.v_size ∧ s.v_size - 1 ≤ sc
  · obtain ⟨d1, d2⟩ := d hd
    refine ⟨by omega, fun _ => d2, fun ht => ?_⟩
    rw [d1] at ht
    exact absurd ht (by decide)
  · obtain ⟨k1, k2⟩ := k hd
    exact inv_of_shrink s s2 hi (by omega) k2 k1

/-! ## The mode invariant without erase -/

theorem pop_back_mode (s : vl_vector α sc) (h : Valid s) (hm : ModeInv s) :
    ∃ s2, pop_back s = some s2 ∧ ModeInv s2 := by
  obtain ⟨s2, e, -, z, d, k⟩ := pop_back_step s h
  refine ⟨s2, e, ?_⟩
  unfold ModeInv at hm ⊢
  by_cases hd : s.is_on_heap = true ∧ 0 < s.v_size ∧ s.v_size - 1 ≤ sc
  · obtain ⟨d1, -⟩ := d hd
    rw [d1, z]
    constructor
    · intro hf
      exact absurd hf (by decide)
    · intro hlt
      omega
  · obtain ⟨k1, -⟩ := k hd
    rw [k1, z]
    constructor
    · intro ht
      have hgt := hm.mp ht
      by_contra hle
      exact hd ⟨ht, by omega, by omega⟩
    · intro hlt
      exact hm.mpr (by omega)

theorem clear_mode (s : vl_vector α sc) (h : Valid s) : Inv (clear s) ∧ ModeInv (clear s) := by
  obtain ⟨-, z, m, c⟩ := clear_core s h
  refine ⟨⟨by omega, fun _ => c, fun ht => ?_⟩, ?_⟩
  · rw [m] at ht
    exact absurd ht (by decide)
  · unfold ModeInv
    rw [m, z]
    simp

theorem reachable_inv (s : vl_vector α sc) (hr : Reachable s) :
    Valid s ∧ Inv s ∧ ModeInv s := by
  induction hr with
  | init => exact valid_inv_default α sc
  | push_back v _ e ih =>
    obtain ⟨hv, hi, hm⟩ := ih
    obtain ⟨t, et, vt, z, -, k, g⟩ := push_back_step _ v hv
    rw [et] at e
    obtain rfl := Option.some.inj e
    obtain ⟨i2, m2, -⟩ := inv_after_reserve _ t 1 hi z k g
    exact ⟨vt, i2, m2 hm⟩
  | pop_back _ e ih =>
    obtain ⟨hv, hi, hm⟩ := ih
    obtain ⟨t, et, vt, it⟩ := pop_back_inv _ hv hi
    obtain ⟨t2, et2, mt⟩ := pop_back_mode _ hv hm
    rw [et] at et2
    obtain rfl := Option.some.inj et2
    rw [et] at e
    obtain rfl := Option.some.inj e
    exact ⟨vt, it, mt⟩
  | insert i p v _ hpos e ih =>
    obtain ⟨hv, hi, hm⟩ := ih
    obtain ⟨t, et, vt, z, k, g⟩ := insert_step _ i v hv hpos
    rw [et] at e
    simp only [Option.some.injEq, Prod.mk.injEq] at e
    obtain ⟨rfl, -⟩ := e
    obtain ⟨i2, m2, -⟩ := inv_after_reserve _ t 1 hi z k g
    exact ⟨vt, i2, m2 hm⟩
  | clear _ ih =>
    obtain ⟨hv, -, -⟩ := ih
    exact ⟨(clear_core _ hv).1, (clear_mode _ hv).1, (clear_mode _ hv).2⟩

/-! ## Claims about push_back -/

/-- C1: for every valid container state `s` and value `v`, `push_back` returns
a valid container of size `size s + 1` whose first `size s` elements are the
elements of `s` in the same order and whose last element is `v`. -/
theorem push_back_appends (s : vl_vector α sc) (v : α) (h : Valid s) :
    ∃ s', push_back s v = some s' ∧ Valid s' ∧ size s' = size s + 1 ∧
      (elems s).length = size s ∧ elems s' = elems s ++ [some v] ∧
      (elems s').take (size s) = elems s ∧ (elems s').getLast? = some (some v) := by
  obtain ⟨s1, s2, -, e2, v2, z2, l2, -⟩ := push_back_core s v h
  have hl := elems_length h
  refine ⟨s2, e2, v2, z2, hl, l2, ?_, ?_⟩
  · rw [l2]
    exact List.take_left' hl
  · rw [l2]
    simp

/-- Witness for C1: a full inline container with two slots. -/
theorem push_back_appends_witness :
    Valid (⟨2, 2, [some 5, some 6], [], false⟩ : vl_vector Nat 2) ∧
    ∃ s', push_back (⟨2, 2, [some 5, some 6], [], false⟩ : vl_vector Nat 2) 7 = some s' ∧
      Valid s' ∧ size s' = size (⟨2, 2, [some 5, some 6], [], false⟩ : vl_vector Nat 2) + 1 ∧
      (elems (⟨2, 2, [some 5, some 6], [], false⟩ : vl_vector Nat 2)).length
        = size (⟨2, 2, [some 5, some 6], [], false⟩ : vl_vector Nat 2) ∧
      elems s' = elems (⟨2, 2, [some 5, some 6], [], false⟩ : vl_vector Nat 2) ++ [some 7] ∧
      (elems s').take (size (⟨2, 2, [some 5, some 6], [], false⟩ : vl_vector Nat 2))
        = elems (⟨2, 2, [some 5, some 6], [], false⟩ : vl_vector Nat 2) ∧
      (elems s').getLast? = some (some 7) :=
  ⟨by decide, push_back_appends _ 7 (by decide)⟩

/-- C2: on a valid container `push_back` keeps capacity and mode when
`size < capacity`, and when `size = capacity` it switches to the heap with
capacity `(size + 1) * 3 / 2` rounded down.  With `static_capacity` 16, pushing
`0..15` onto the empty container leaves it inline with size 16 and capacity 16,
and a 17th element gives heap mode, size 17, capacity 25. -/
theorem push_back_capacity (s : vl_vector α sc) (v : α) (h : Valid s) :
    (∃ s', push_back s v = some s' ∧
      (size s < capacity s → capacity s' = capacity s ∧ on_heap s' = on_heap s) ∧
      (size s = capacity s → on_heap s' = true ∧ capacity s' = (size s + 1) * 3 / 2)) ∧
    (of_list 16 (List.range 16)).map (fun t => (on_heap t, size t, capacity t))
      = some (false, 16, 16) ∧
    (of_list 16 (List.range 17)).map (fun t => (on_heap t, size t, capacity t))
      = some (true, 17, 25) := by
  refine ⟨?_, by decide, by decide⟩
  obtain ⟨s1, s2, -, e2, -, -, -, c2, m2, g, n⟩ := push_back_core s v h
  refine ⟨s2, e2, ?_, ?_⟩
  · intro hlt
    have hne : s.v_size ≠ s.v_capacity := by
      simp only [size, capacity] at hlt
      omega
    have := n hne
    subst this
    exact ⟨c2, m2⟩
  · intro heq
    obtain ⟨g1, g2⟩ := g heq
    simp only [on_heap, capacity, size]
    rw [m2, c2]
    exact ⟨g1, g2⟩

/-- Witness for C2: a full inline container with two slots grows to three. -/
theorem push_back_capacity_witness :
    Valid (⟨2, 2, [some 5, some 6], [], false⟩ : vl_vector Nat 2) ∧
    (push_back (⟨2, 2, [some 5, some 6], [], false⟩ : vl_vector Nat 2) 7).map
      (fun t => (on_heap t, capacity t)) = some (true, 4) := by
  refine ⟨by decide, ?_⟩
  obtain ⟨⟨s', e, -, hfull⟩, -⟩ :=
    push_back_capacity (⟨2, 2, [some 5, some 6], [], false⟩ : vl_vector Nat 2) 7 (by decide)
  obtain ⟨hm, hc⟩ := hfull rfl
  rw [e]
  simp only [Option.map_some', hm, hc]
  rfl

/-! ## Claims about pop_back -/

/-- C3: on a valid container `pop_back` changes nothing when the container is
empty; otherwise the size drops by one and the remaining elements are the old
ones without the last.  A heap container whose new size is at most
`static_capacity` becomes inline with capacity `static_capacity`; a heap
container whose new size is larger keeps mode and capacity (as does an inline
one).  With `static_capacity` 16, 17 `push_back` calls followed by 8 `pop_back`
calls give an inline container of size 9 and capacity 16. -/
theorem pop_back_spec (s : vl_vector α sc) (h : Valid s) :
    (∃ s', pop_back s = some s' ∧ Valid s' ∧
      (size s = 0 → s' = s) ∧
      (0 < size s → size s' = size s - 1 ∧ elems s' = (elems s).dropLast ∧
        (on_heap s = true → size s - 1 ≤ sc → on_heap s' = false ∧ capacity s' = sc) ∧
        (on_heap s = true → sc < size s - 1 →
          on_heap s' = true ∧ capacity s' = capacity s) ∧
        (on_heap s = false → on_heap s' = false ∧ capacity s' = capacity s))) ∧
    ((of_list 16 (List.range 17)).bind fun t => pop_back_n t 8).map
      (fun t => (on_heap t, size t, capacity t)) = some (false, 9, 16) := by
  refine ⟨?_, by decide⟩
  have hlen := data_length h
  have hv := h
  obtain ⟨h1, h2, h3⟩ := h
  by_cases hpos : 0 < s.v_size
  · cases hm : s.is_on_heap
    · -- inline
      simp only [hm, Bool.false_eq_true, if_false] at h3
      refine ⟨{ s with v_size := s.v_size - 1 }, by simp [pop_back, hpos, hm],
        ⟨by simp; omega, h2, by simp [hm, h3]⟩, ?_, ?_⟩
      · intro h0
        simp only [size] at h0
        omega
      · intro _
        refine ⟨rfl, ?_, by simp [on_heap, hm], by simp [on_heap, hm], fun _ => ⟨by simp [on_heap, hm], rfl⟩⟩
        simp only [elems, data, hm, Bool.false_eq_true, if_false]
        exact (dropLast_take _ _ (by omega) hpos).symm
    · simp only [hm, if_true] at h3
      by_cases hle : s.v_size - 1 ≤ sc
      · refine ⟨_, pop_back_demote s hv hpos hm hle, ⟨by simp; omega, ?_, by simp⟩, ?_, ?_⟩
        · simp
          omega
        · intro h0
          simp only [size] at h0
          omega
        · intro _
          refine ⟨rfl, ?_, fun _ _ => ⟨rfl, rfl⟩, ?_, ?_⟩
          · simp only [elems, data, hm, Bool.false_eq_true, if_false, if_true]
            rw [List.take_append_of_le_length (by simp; omega), List.take_take,
              dropLast_take _ _ (by omega) hpos]
            simp
          · intro _ hgt
            simp only [size] at hgt
            omega
          · intro hf
            simp [on_heap, hm] at hf
      · refine ⟨{ s with v_size := s.v_size - 1 }, by simp [pop_back, hpos, hm, hle],
          ⟨by simp; omega, h2, by simp [hm, h3]⟩, ?_, ?_⟩
        · intro h0
          simp only [size] at h0
          omega
        · intro _
          refine ⟨rfl, ?_, ?_, fun _ _ => ⟨by simp [on_heap, hm], rfl⟩, ?_⟩
          · simp only [elems, data, hm, if_true]
            exact (dropLast_take _ _ (by omega) hpos).symm
          · intro _ hle2
            simp only [size] at hle2
            omega
          · intro hf
            simp [on_heap, hm] at hf
  · refine ⟨s, by simp [pop_back, hpos], hv, fun _ => rfl, fun hp => absurd hp hpos⟩

/-- Witness for C3: a heap container of three elements over two inline slots
drops back to the inline block. -/
theorem pop_back_spec_witness :
    Valid (⟨3, 4, [none, none], [some 5, some 6, some 7, none], true⟩ : vl_vector Nat 2) ∧
    (pop_back (⟨3, 4, [none, none], [some 5, some 6, some 7, none], true⟩ : vl_vector Nat 2)).map
      (fun t => (on_heap t, capacity t)) = some (false, 2) := by
  refine ⟨by decide, ?_⟩
  obtain ⟨⟨s', e, -, -, hpos⟩, -⟩ :=
    pop_back_spec (⟨3, 4, [none, none], [some 5, some 6, some 7, none], true⟩ : vl_vector Nat 2)
      (by decide)
  obtain ⟨-, -, hd, -⟩ := hpos (by decide)
  obtain ⟨hm, hc⟩ := hd rfl (by decide)
  rw [e]
  simp only [Option.map_some', hm, hc]

/-! ## Claims about insert and erase -/

/-- C5: for every valid container with element sequence `xs`, every index
`i ≤ size` and value `v`, `insert (begin () + i, v)` returns a valid container
with elements `xs[0..i) ++ [v] ++ xs[i..size)` and size `size + 1`, together
with the iterator of offset `i`, whose slot holds `v`; the statement covers the
call that grows the block and the call that does not.  Inserting 99 at offset 2
of `{0,1,2,3}` gives `{0,1,99,2,3}`, size 5. -/
theorem insert_spec (s : vl_vector α sc) (i : Nat) (v : α) (h : Valid s) (hi : i ≤ size s) :
    (∃ s', insert s i v = some (s', i) ∧ Valid s' ∧ size s' = size s + 1 ∧
      elems s' = (elems s).take i ++ [some v] ++ (elems s).drop i ∧
      (elems s')[i]? = some (some v)) ∧
    ((of_list 16 [0, 1, 2, 3]).bind fun t => insert t 2 99).map
      (fun r => (elems r.1, size r.1, r.2))
      = some ([some 0, some 1, some 99, some 2, some 3], 5, 2) := by
  refine ⟨?_, by decide⟩
  obtain ⟨s1, s2, -, e2, v2, z2, l2, -⟩ := insert_core s i v h hi
  refine ⟨s2, e2, v2, z2, l2, ?_⟩
  have hxl : (elems s).length = s.v_size := elems_length h
  simp only [size] at hi
  rw [l2, getElem?_insert_at _ _ _ (by omega)]
  simp

/-- Witness for C5: insertion at the front of a full inline container. -/
theorem insert_spec_witness :
    Valid (⟨2, 2, [some 5, some 6], [], false⟩ : vl_vector Nat 2) ∧
    0 ≤ size (⟨2, 2, [some 5, some 6], [], false⟩ : vl_vector Nat 2) ∧
    (insert (⟨2, 2, [some 5, some 6], [], false⟩ : vl_vector Nat 2) 0 7).map
      (fun r => (elems r.1, r.2)) = some ([some 7, some 5, some 6], 0) := by
  refine ⟨by decide, by decide, ?_⟩
  obtain ⟨⟨s', e, -, -, l, -⟩, -⟩ :=
    insert_spec (⟨2, 2, [some 5, some 6], [], false⟩ : vl_vector Nat 2) 0 7 (by decide)
      (by decide)
  rw [e, Option.map_some', l]
  rfl

/-- C7: for every valid container with element sequence `xs` and every index
`i < size`, `erase (begin () + i)` returns a valid container with elements
`xs[0..i) ++ xs[i+1..size)`, size `size - 1` and the same capacity, together
with the iterator of offset `i`: it designates the element that followed the
erased one, and is the end iterator when `i` was the last index. -/
theorem erase_spec (s : vl_vector α sc) (i : Nat) (h : Valid s) (hi : i < size s) :
    ∃ s', erase s i = some (s', i) ∧ Valid s' ∧ size s' = size s - 1 ∧
      capacity s' = capacity s ∧
      elems s' = (elems s).take i ++ (elems s).drop (i + 1) ∧
      (elems s')[i]? = (elems s)[i + 1]? ∧ (i + 1 = size s → i = size s') := by
  simp only [size] at hi
  obtain ⟨s2, e2, v2, z2, l2, c2, -⟩ := erase_range_core s i (i + 1) h (by omega) (by omega)
  have hxl : (elems s).length = s.v_size := elems_length h
  have hz : s2.v_size = s.v_size - 1 := by omega
  refine ⟨s2, by rw [erase_eq_erase_range]; exact e2, v2, hz, c2, l2, ?_, ?_⟩
  · rw [l2, getElem?_remove_segment _ _ _ (by omega)]
    simp
  · intro hlast
    simp only [size] at hlast ⊢
    omega

/-- Witness for C7: erasing the middle element of three. -/
theorem erase_spec_witness :
    Valid (⟨3, 4, [none, none], [some 5, some 6, some 7, none], true⟩ : vl_vector Nat 2) ∧
    1 < size (⟨3, 4, [none, none], [some 5, some 6, some 7, none], true⟩ : vl_vector Nat 2) ∧
    (erase (⟨3, 4, [none, none], [some 5, some 6, some 7, none], true⟩ : vl_vector Nat 2) 1).map
      (fun r => (elems r.1, r.2)) = some ([some 5, some 7], 1) := by
  refine ⟨by decide, by decide, ?_⟩
  obtain ⟨s', e, -, -, -, l, -⟩ :=
    erase_spec (⟨3, 4, [none, none], [some 5, some 6, some 7, none], true⟩ : vl_vector Nat 2) 1
      (by decide) (by decide)
  rw [e, Option.map_some', l]
  rfl

/-- C8: for every valid container with element sequence `xs` and all offsets
`f ≤ l ≤ size`, `erase (begin () + f, begin () + l)` returns a valid container
with elements `xs[0..f) ++ xs[l..size)` and size `size - (l - f)`, together with
the iterator of offset `f`.  Erasing offsets 1 to 3 of `{0,1,2,3,4}` gives
`{0,3,4}`, size 3. -/
theorem erase_range_spec (s : vl_vector α sc) (f l : Nat) (h : Valid s) (hfl : f ≤ l)
    (hl : l ≤ size s) :
    (∃ s', erase_range s f l = some (s', f) ∧ Valid s' ∧ size s' = size s - (l - f) ∧
      elems s' = (elems s).take f ++ (elems s).drop l) ∧
    ((of_list 16 [0, 1, 2, 3, 4]).bind fun t => erase_range t 1 3).map
      (fun r => (elems r.1, size r.1, r.2)) = some ([some 0, some 3, some 4], 3, 1) := by
  refine ⟨?_, by decide⟩
  obtain ⟨s2, e2, v2, z2, l2, -⟩ := erase_range_core s f l h hfl hl
  exact ⟨s2, e2, v2, z2, l2⟩

/-- Witness for C8: erasing the first two of three elements. -/
theorem erase_range_spec_witness :
    Valid (⟨3, 4, [none, none], [some 5, some 6, some 7, none], true⟩ : vl_vector Nat 2) ∧
    0 ≤ 2 ∧
    2 ≤ size (⟨3, 4, [none, none], [some 5, some 6, some 7, none], true⟩ : vl_vector Nat 2) ∧
    (erase_range (⟨3, 4, [none, none], [some 5, some 6, some 7, none], true⟩ : vl_vector Nat 2)
      0 2).map (fun r => (elems r.1, r.2)) = some ([some 7], 0) := by
  refine ⟨by decide, by decide, by decide, ?_⟩
  obtain ⟨⟨s', e, -, -, l⟩, -⟩ :=
    erase_range_spec (⟨3, 4, [none, none], [some 5, some 6, some 7, none], true⟩ : vl_vector Nat 2)
      0 2 (by decide) (by decide) (by decide)
  rw [e, Option.map_some', l]
  rfl

/-! ## Claims about the range insert -/

/-- C6: the range insert does not produce `xs[0..i) ++ ys ++ xs[i..size)`.
Inserting `{8,9}` at offset 2 of `{0,1,2,3}` (built by `push_back`,
`static_capacity` 16) gives size 6 and the slots `0,1,8,9,2` followed by a slot
that was never written: the tail shift copies slot `end_i - range` into slot
`end_i` starting at `end ()`, so element 3 is lost. -/
theorem insert_range_loses_tail :
    ((of_list 16 [0, 1, 2, 3]).bind fun t => insert_range t 2 [8, 9]).map
      (fun r => (elems r.1, size r.1))
      = some ([some 0, some 1, some 8, some 9, some 2, none], 6) := by
  decide

/-- C10: on a valid container and an offset `i ≤ size`, every position that
the range insert of a source of length `r` returns has offset `i + r`; the
container it returns has size `size + r` and its slots `i .. i + r - 1` hold
the source values in order, so the returned iterator is one past the last
inserted element.  The range insert has a result exactly on the calls that stay
inside the block: `i = size`, or `r ≤ i + 1` and the range is not empty or the
block is not full. -/
theorem insert_range_position (s : vl_vector α sc) (i : Nat) (ys : List α) (h : Valid s)
    (hi : i ≤ size s) :
    ((∃ r, insert_range s i ys = some r) ↔
      (i = size s ∨ (ys.length ≤ i + 1 ∧ (ys ≠ [] ∨ size s < capacity s)))) ∧
    (∀ s' p, insert_range s i ys = some (s', p) →
      p = i + ys.length ∧ size s' = size s + ys.length ∧
      ∀ k, k < ys.length → (elems s')[i + k]? = (ys[k]?).map some) := by
  refine ⟨insert_range_runs_iff s i ys h hi, fun s' p hr => ?_⟩
  have hsafe := (insert_range_runs_iff s i ys h hi).mp ⟨_, hr⟩
  obtain ⟨s1, s2, -, e2, -, z2, -, -, -, -, -, hc⟩ := insert_range_core s i ys h hi hsafe
  rw [e2] at hr
  simp only [Option.some.injEq, Prod.mk.injEq] at hr
  obtain ⟨rfl, rfl⟩ := hr
  exact ⟨rfl, z2, hc⟩

/-- Witness for C10: appending `{8,9}` to a full inline container of two
elements returns the iterator of offset 4. -/
theorem insert_range_position_witness :
    Valid (⟨2, 2, [some 5, some 6], [], false⟩ : vl_vector Nat 2) ∧
    2 ≤ size (⟨2, 2, [some 5, some 6], [], false⟩ : vl_vector Nat 2) ∧
    (insert_range (⟨2, 2, [some 5, some 6], [], false⟩ : vl_vector Nat 2) 2 [8, 9]).map
      (fun r => r.2) = some 4 := by
  refine ⟨by decide, by decide, ?_⟩
  obtain ⟨hiff, hres⟩ :=
    insert_range_position (⟨2, 2, [some 5, some 6], [], false⟩ : vl_vector Nat 2) 2 [8, 9]
      (by decide) (by decide)
  obtain ⟨⟨s', p⟩, e⟩ := hiff.mpr (Or.inl rfl)
  obtain ⟨hp, -⟩ := hres s' p e
  rw [e, Option.map_some', hp]
  rfl

/-! ## Claims about demotion after erase -/

/-- C4: the mode invariant `size > static_capacity ↔ heap` does not survive
`erase`.  From the empty container (`static_capacity` 16), 17 `push_back` calls
followed by `erase` of the last element give size 16 with the heap block still
live. -/
theorem erase_breaks_mode_invariant :
    ((of_list 16 (List.range 17)).bind fun t => erase t 16).map
      (fun r => (size r.1, decide (16 < size r.1), on_heap r.1)) = some (16, false, true) := by
  decide

/-- C9: neither `erase` overload demotes.  On the heap container holding
`0..16` (`static_capacity` 16, capacity 25), `erase (begin ())` leaves size 16
and `erase (begin (), begin () + 8)` leaves size 9, both still in heap mode with
capacity 25; `pop_back` at the same sizes gives inline mode with capacity 16. -/
theorem erase_keeps_heap :
    ((of_list 16 (List.range 17)).bind fun t => erase t 0).map
      (fun r => (size r.1, on_heap r.1, capacity r.1)) = some (16, true, 25) ∧
    ((of_list 16 (List.range 17)).bind fun t => erase_range t 0 8).map
      (fun r => (size r.1, on_heap r.1, capacity r.1)) = some (9, true, 25) ∧
    ((of_list 16 (List.range 17)).bind fun t => pop_back t).map
      (fun r => (size r, on_heap r, capacity r)) = some (16, false, 16) := by
  decide

/-! ## Claims about the returned iterator and the constructors -/

/-- C11: the range insert does not return the iterator of the first inserted
element, as its documentation says.  Appending `{8,9}` to `{0,1,2,3}` returns
offset 6, not 4; inserting `{9}` at offset 1 of `{0,1,2}` gives `{0,9,1,2}` and
returns offset 2, not 1: the copy loop advances `position` and the advanced
iterator is returned. -/
theorem insert_range_returns_past_range :
    ((of_list 16 [0, 1, 2, 3]).bind fun t => insert_range t 4 [8, 9]).map
      (fun r => (elems r.1, r.2))
      = some ([some 0, some 1, some 2, some 3, some 8, some 9], 6) ∧
    ((of_list 16 [0, 1, 2]).bind fun t => insert_range t 1 [9]).map
      (fun r => (elems r.1, r.2)) = some ([some 0, some 9, some 1, some 2], 2) := by
  decide

/-- C14, as stated, fails: with `static_capacity` 16 and the 18 values `0..17`,
the sequence constructor ends with capacity 27 while the initializer-list
constructor and 18 `push_back` calls end with capacity 25. -/
theorem ctor_paths_counterexample :
    (range_ctor 16 (List.range 18)).map (fun t => (size t, on_heap t, capacity t))
      = some (18, true, 27) ∧
    (list_ctor 16 (List.range 18)).map (fun t => (size t, on_heap t, capacity t))
      = some (18, true, 25) ∧
    (of_list 16 (List.range 18)).map (fun t => (size t, on_heap t, capacity t))
      = some (18, true, 25) := by
  decide

/-- C14, amended: the initializer-list constructor ends in the same state as
pushing the values one by one onto the empty container, and the single-value
constructor `(count, v)` in the same state as `count` calls of `push_back (v)`.
The sequence constructor ends with the same size, element sequence and mode as
the `push_back` path; its state is the same when the source is no longer than
`static_capacity`, and its capacity is `length * 3 / 2` when the source is
longer. -/
theorem ctor_paths (sc : Nat) (xs : List α) (count : Nat) (v : α) :
    list_ctor sc xs = of_list sc xs ∧
    count_ctor sc count v = of_list sc (List.replicate count v) ∧
    ∃ a b : vl_vector α sc, range_ctor sc xs = some a ∧ of_list sc xs = some b ∧
      size a = size b ∧ elems a = elems b ∧ on_heap a = on_heap b ∧
      (xs.length ≤ sc → a = b) ∧ (sc < xs.length → capacity a = xs.length * 3 / 2) := by
  refine ⟨list_ctor_eq sc xs, count_ctor_eq sc count v, ?_⟩
  obtain ⟨b, eb, -, -, mb, zb, lb, -⟩ := of_list_spec sc xs
  by_cases hlen : xs.length ≤ sc
  · refine ⟨b, b, by rw [range_ctor_short sc xs hlen]; exact eb, eb, rfl, rfl, rfl,
      fun _ => rfl, fun hgt => ?_⟩
    omega
  · obtain ⟨a, ea, -, -, -, za, la, ma, ca⟩ := range_ctor_long sc xs (by omega)
    refine ⟨a, b, ea, eb, by simp only [size]; omega, by rw [la, lb], ?_,
      fun hle => absurd hle hlen, fun _ => ca⟩
    have hb : b.is_on_heap = true := mb.mpr (by omega)
    simp only [on_heap, ma, hb]

/-- Witness for the amended C14: three values over two inline slots. -/
theorem ctor_paths_witness :
    (2 < [1, 2, 3].length) ∧
    (range_ctor 2 [1, 2, 3]).map (fun t => capacity t) = some 4 := by
  refine ⟨by decide, ?_⟩
  obtain ⟨-, -, a, b, ea, -, -, -, -, -, hc⟩ := ctor_paths 2 [1, 2, 3] 0 0
  rw [ea, Option.map_some', hc (by decide)]
  rfl

/-- C15: for every source sequence `xs`, of any length, the sequence
constructor returns a container of size `length xs` whose slots `0 .. size - 1`
of the live block, the slots an iteration from `begin ()` to `end ()` visits,
hold the values of `xs` in the same order. -/
theorem range_ctor_round_trip (sc : Nat) (xs : List α) :
    ∃ s : vl_vector α sc, range_ctor sc xs = some s ∧ Valid s ∧ size s = xs.length ∧
      elems s = xs.map some ∧ (data s).take (size s) = xs.map some := by
  by_cases hlen : xs.length ≤ sc
  · obtain ⟨b, eb, vb, -, -, zb, lb, -⟩ := of_list_spec sc xs
    exact ⟨b, by rw [range_ctor_short sc xs hlen]; exact eb, vb, zb, lb, lb⟩
  · obtain ⟨a, ea, va, -, -, za, la, -⟩ := range_ctor_long sc xs (by omega)
    exact ⟨a, ea, va, za, la, la⟩

/-! ## Claims about access and equality -/

/-- C12: for every container and index, `at (index)` throws the out-of-range
exception exactly when `index ≥ size`, and it leaves the container as it was.
On a valid container with `index < size` it hands back the slot `index` of the
live block: the heap block in heap mode, the member array in inline mode. -/
theorem at_spec (s : vl_vector α sc) (index : Nat) :
    ((at_ s index).2 = at_result.out_of_range ↔ size s ≤ index) ∧ (at_ s index).1 = s ∧
    (Valid s → index < size s →
      ∃ x, (at_ s index).2 = at_result.slot x ∧ (data s)[index]? = some x ∧
        (elems s)[index]? = some x ∧
        (on_heap s = true → s.v_heap_data[index]? = some x) ∧
        (on_heap s = false → s.v_stack_data[index]? = some x)) := by
  refine ⟨?_, by rw [at_eq], fun hv hi => ?_⟩
  · rw [at_eq]
    simp only [size]
    by_cases hi : index ≥ s.v_size
    · simp only [hi, if_true]
    · simp only [hi, if_false]
      constructor
      · intro h
        cases hd : (data s)[index]? <;> simp [hd] at h
      · intro h
        exact h.elim
  · simp only [size] at hi
    obtain ⟨x, ex, hx⟩ := at_slot s index hv hi
    refine ⟨x, ex, hx, ?_, ?_, ?_⟩
    · simp only [elems]
      rw [List.getElem?_take_of_lt hi]
      exact hx
    · intro hm
      simp only [on_heap] at hm
      simpa [data, hm] using hx
    · intro hm
      simp only [on_heap] at hm
      simpa [data, hm] using hx

/-- Witness for C12: index 2 of a heap container of three elements. -/
theorem at_spec_witness :
    Valid (⟨3, 4, [none, none], [some 5, some 6, some 7, none], true⟩ : vl_vector Nat 2) ∧
    2 < size (⟨3, 4, [none, none], [some 5, some 6, some 7, none], true⟩ : vl_vector Nat 2) ∧
    (at_ (⟨3, 4, [none, none], [some 5, some 6, some 7, none], true⟩ : vl_vector Nat 2) 2).2
      = at_result.slot (some 7) := by
  refine ⟨by decide, by decide, ?_⟩
  obtain ⟨-, -, h⟩ :=
    at_spec (⟨3, 4, [none, none], [some 5, some 6, some 7, none], true⟩ : vl_vector Nat 2) 2
  obtain ⟨x, ex, -, -, hh, -⟩ := h (by decide) (by decide)
  have h7 := hh rfl
  simp only [List.getElem?_cons_succ, List.getElem?_cons_zero, Option.some.injEq] at h7
  rw [ex, ← h7]

/-- C13: for two valid containers with the same `static_capacity`, `a == b`
returns, and it returns true exactly when the sizes are equal and
`a[i] = b[i]` for every `i < size`, that is exactly when the sizes and the
element sequences are equal, whatever the modes and capacities; `a != b`
returns the negation.  With `static_capacity` 16, the inline container holding
`0..15` equals the heap container left by 17 `push_back` calls and an `erase` of
the last element, and the two heap containers of capacities 27 and 25 holding
`0..17` are equal. -/
theorem operator_eq_spec [DecidableEq α] (a b : vl_vector α sc) (ha : Valid a) (hb : Valid b) :
    (∃ r, operator_eq a b = some r ∧ operator_ne a b = some (!r) ∧
      (r = true ↔ size a = size b ∧
        ∀ i, i < size a → operator_index a i = operator_index b i) ∧
      (r = true ↔ size a = size b ∧ elems a = elems b)) ∧
    ((of_list 16 (List.range 17)).bind fun t => (erase t 16).bind fun r =>
      (of_list 16 (List.range 16)).bind fun u =>
        (operator_eq r.1 u).map fun e => (on_heap r.1, on_heap u, e))
      = some (true, false, true) ∧
    ((range_ctor 16 (List.range 18)).bind fun t => (of_list 16 (List.range 18)).bind fun u =>
        (operator_eq t u).map fun e => (capacity t, capacity u, e))
      = some (27, 25, true) := by
  refine ⟨?_, by decide, by decide⟩
  obtain ⟨r, er, hr⟩ := operator_eq_core a b ha hb
  refine ⟨r, er, by simp [operator_ne, er], ?_, ?_⟩
  · rw [hr]
    simp only [size, operator_index_eq]
  · rw [hr]
    simp only [size]
    constructor
    · rintro ⟨h1, h2⟩
      exact ⟨h1, (elems_eq_iff a b h1).mpr h2⟩
    · rintro ⟨h1, h2⟩
      exact ⟨h1, (elems_eq_iff a b h1).mp h2⟩

/-- Witness for C13: an inline and a heap container holding `5, 6`. -/
theorem operator_eq_spec_witness :
    Valid (⟨2, 2, [some 5, some 6], [], false⟩ : vl_vector Nat 2) ∧
    Valid (⟨2, 4, [none, none], [some 5, some 6, some 7, none], true⟩ : vl_vector Nat 2) ∧
    operator_eq (⟨2, 2, [some 5, some 6], [], false⟩ : vl_vector Nat 2)
      (⟨2, 4, [none, none], [some 5, some 6, some 7, none], true⟩ : vl_vector Nat 2)
      = some true := by
  refine ⟨by decide, by decide, ?_⟩
  obtain ⟨⟨r, er, -, -, hr⟩, -⟩ :=
    operator_eq_spec (⟨2, 2, [some 5, some 6], [], false⟩ : vl_vector Nat 2)
      (⟨2, 4, [none, none], [some 5, some 6, some 7, none], true⟩ : vl_vector Nat 2)
      (by decide) (by decide)
  have : r = true := hr.mpr ⟨by decide, by decide⟩
  rw [er, this]

/-! ## Claims about clear, insert followed by erase, and copies -/

/-- C16: for every valid container, inline or on the heap, `clear ()` leaves
size 0, inline mode and capacity `static_capacity`, and a second `clear ()`
changes nothing: `clear (clear s) = clear s`. -/
theorem clear_spec (s : vl_vector α sc) (h : Valid s) :
    size (clear s) = 0 ∧ on_heap (clear s) = false ∧ capacity (clear s) = sc ∧
      elems (clear s) = [] ∧ Valid (clear s) ∧ clear (clear s) = clear s := by
  obtain ⟨v, z, m, c⟩ := clear_core s h
  refine ⟨z, m, c, ?_, v, clear_idem s⟩
  simp [elems, z]

/-- Witness for C16: clearing a heap container of three elements. -/
theorem clear_spec_witness :
    Valid (⟨3, 4, [none, none], [some 5, some 6, some 7, none], true⟩ : vl_vector Nat 2) ∧
    capacity (clear (⟨3, 4, [none, none], [some 5, some 6, some 7, none], true⟩
      : vl_vector Nat 2)) = 2 ∧
    clear (clear (⟨3, 4, [none, none], [some 5, some 6, some 7, none], true⟩ : vl_vector Nat 2))
      = clear (⟨3, 4, [none, none], [some 5, some 6, some 7, none], true⟩ : vl_vector Nat 2) := by
  obtain ⟨-, -, c, -, -, i⟩ :=
    clear_spec (⟨3, 4, [none, none], [some 5, some 6, some 7, none], true⟩ : vl_vector Nat 2)
      (by decide)
  exact ⟨by decide, c, i⟩

/-- C17: for every valid container with element sequence `xs`, every offset
`i ≤ size` and value `v`, `insert (begin () + i, v)` followed by
`erase (begin () + i)` on the result returns a container with the size and the
element sequence of the original (capacity and mode may differ). -/
theorem insert_then_erase (s : vl_vector α sc) (i : Nat) (v : α) (h : Valid s)
    (hi : i ≤ size s) :
    ∃ s1 s2, insert s i v = some (s1, i) ∧ erase s1 i = some (s2, i) ∧ Valid s2 ∧
      size s2 = size s ∧ elems s2 = elems s := by
  simp only [size] at hi
  obtain ⟨-, s1, -, e1, v1, z1, l1, -⟩ := insert_core s i v h hi
  obtain ⟨s2, e2, v2, z2, l2, -⟩ := erase_range_core s1 i (i + 1) v1 (by omega) (by omega)
  have hxl : (elems s).length = s.v_size := elems_length h
  refine ⟨s1, s2, e1, by rw [erase_eq_erase_range]; exact e2, v2, ?_, ?_⟩
  · simp only [size]
    omega
  · rw [l2, l1]
    exact insert_erase_list _ _ _ (by omega)

/-- Witness for C17: insertion into a full inline container, then erasure; the
container ends on the heap with the elements it started with. -/
theorem insert_then_erase_witness :
    Valid (⟨2, 2, [some 5, some 6], [], false⟩ : vl_vector Nat 2) ∧
    1 ≤ size (⟨2, 2, [some 5, some 6], [], false⟩ : vl_vector Nat 2) ∧
    ((insert (⟨2, 2, [some 5, some 6], [], false⟩ : vl_vector Nat 2) 1 7).bind
      fun r => erase r.1 1).map (fun r => elems r.1) = some [some 5, some 6] := by
  refine ⟨by decide, by decide, ?_⟩
  obtain ⟨s1, s2, e1, e2, -, -, l⟩ :=
    insert_then_erase (⟨2, 2, [some 5, some 6], [], false⟩ : vl_vector Nat 2) 1 7 (by decide)
      (by decide)
  rw [e1, Option.some_bind, e2, Option.map_some', l]
  rfl

/-- C18: for valid containers `dst` and `src` with the same `static_capacity`,
the copy assignment `dst = src` between two objects returns, leaves `src` as it
was and gives `dst` the size, capacity, mode and element sequence of `src`, so
that `dst == src` holds, whatever `dst` held before; self-assignment leaves the
container as it was; the copy constructor returns a container with the size,
capacity, mode and element sequence of its argument. -/
theorem operator_assign_spec [DecidableEq α] (dst src : vl_vector α sc) (hd : Valid dst)
    (hs : Valid src) :
    (∃ d, operator_assign dst src false = some (d, src) ∧ Valid d ∧ size d = size src ∧
      capacity d = capacity src ∧ on_heap d = on_heap src ∧ elems d = elems src ∧
      operator_eq d src = some true) ∧
    operator_assign dst dst true = some (dst, dst) ∧
    (∃ c, copy_ctor src = some c ∧ Valid c ∧ size c = size src ∧
      capacity c = capacity src ∧ on_heap c = on_heap src ∧ elems c = elems src) := by
  obtain ⟨d, e, v, z, c, m, l⟩ := operator_assign_core dst src hd hs
  refine ⟨⟨d, e, v, z, c, m, l, ?_⟩, by simp [operator_assign], copy_ctor_core src hs⟩
  obtain ⟨r, er, hr⟩ := operator_eq_core d src v hs
  have : r = true := hr.mpr ⟨z, (elems_eq_iff d src z).mp l⟩
  rw [er, this]

/-- Witness for C18: a heap container assigned to an inline one. -/
theorem operator_assign_spec_witness :
    Valid (⟨2, 2, [some 5, some 6], [], false⟩ : vl_vector Nat 2) ∧
    Valid (⟨3, 4, [none, none], [some 1, some 2, some 3, none], true⟩ : vl_vector Nat 2) ∧
    (operator_assign (⟨2, 2, [some 5, some 6], [], false⟩ : vl_vector Nat 2)
      (⟨3, 4, [none, none], [some 1, some 2, some 3, none], true⟩ : vl_vector Nat 2) false).map
      (fun r => (elems r.1, capacity r.1, on_heap r.1))
      = some ([some 1, some 2, some 3], 4, true) := by
  refine ⟨by decide, by decide, ?_⟩
  obtain ⟨⟨d, e, -, -, c, m, l, -⟩, -, -⟩ :=
    operator_assign_spec (⟨2, 2, [some 5, some 6], [], false⟩ : vl_vector Nat 2)
      (⟨3, 4, [none, none], [some 1, some 2, some 3, none], true⟩ : vl_vector Nat 2)
      (by decide) (by decide)
  rw [e, Option.map_some', l, c, m]
  rfl

/-! ## Claims about capacity growth and the data-model invariant -/

/-- C19: on a valid container, `push_back` and the single `insert` at an
offset `i ≤ size` return a container whose capacity is at least the capacity
before the call, and every container that the range insert at an offset
`i ≤ size` returns has a capacity at least the capacity before the call, for
every length of the range.  The range insert has a result exactly on the calls
that stay inside the block: `i = size`, or the range is no longer than `i + 1`
and is not empty or the block is not full. -/
theorem insertion_capacity_monotone (s : vl_vector α sc) (i : Nat) (v : α) (ys : List α)
    (h : Valid s) (hi : i ≤ size s) :
    (∃ s', push_back s v = some s' ∧ capacity s ≤ capacity s') ∧
    (∃ s', insert s i v = some (s', i) ∧ capacity s ≤ capacity s') ∧
    ((∃ r, insert_range s i ys = some r) ↔
      (i = size s ∨ (ys.length ≤ i + 1 ∧ (ys ≠ [] ∨ size s < capacity s)))) ∧
    (∀ s' p, insert_range s i ys = some (s', p) → capacity s ≤ capacity s') := by
  simp only [size, capacity] at hi ⊢
  refine ⟨?_, ?_, insert_range_runs_iff s i ys h hi, fun s' p hr => ?_⟩
  · obtain ⟨s2, e, -, -, -, k, g⟩ := push_back_step s v h
    refine ⟨s2, e, ?_⟩
    by_cases hk : s.v_capacity < s.v_size + 1
    · have := (g hk).2
      omega
    · have := (k hk).1
      omega
  · obtain ⟨s2, e, -, -, k, g⟩ := insert_step s i v h hi
    refine ⟨s2, e, ?_⟩
    by_cases hk : s.v_capacity < s.v_size + 1
    · have := (g hk).2
      omega
    · have := (k hk).1
      omega
  · obtain ⟨-, -, k, g⟩ := insert_range_returned s s' i p ys h hi hr
    by_cases hk : s.v_capacity < s.v_size + ys.length
    · have := (g hk).2
      omega
    · have := (k hk).1
      omega

/-- Witness for C19: the range insert of `{8,9}` at the end of a full inline
container of two slots returns, with a capacity that is not lower. -/
theorem insertion_capacity_monotone_witness :
    Valid (⟨2, 2, [some 5, some 6], [], false⟩ : vl_vector Nat 2) ∧
    2 ≤ size (⟨2, 2, [some 5, some 6], [], false⟩ : vl_vector Nat 2) ∧
    ∃ s' p, insert_range (⟨2, 2, [some 5, some 6], [], false⟩ : vl_vector Nat 2) 2 [8, 9]
        = some (s', p) ∧
      capacity (⟨2, 2, [some 5, some 6], [], false⟩ : vl_vector Nat 2) ≤ capacity s' := by
  refine ⟨by decide, by decide, ?_⟩
  obtain ⟨-, -, hiff, hall⟩ :=
    insertion_capacity_monotone (⟨2, 2, [some 5, some 6], [], false⟩ : vl_vector Nat 2) 2 7
      [8, 9] (by decide) (by decide)
  obtain ⟨⟨s', p⟩, e⟩ := hiff.mpr (Or.inl rfl)
  exact ⟨s', p, e, hall s' p e⟩

/-- C20: the invariant `size ≤ capacity`, inline implies capacity
`static_capacity`, heap implies capacity at least `static_capacity`, holds of
the result of every constructor, and on a valid container that satisfies it,
it holds of the result of `push_back`, `pop_back`, the single `insert` at
`i ≤ size`, `erase` at `i < size`, `erase` of `f ≤ l ≤ size`, `clear` and the
copy assignment from a valid container that satisfies it, all of which return,
and of every container that the range insert at `i ≤ size` returns.  The range
insert has a result exactly on the calls that stay inside the block: `i = size`,
or the range is no longer than `i + 1` and is not empty or the block is not
full. -/
theorem invariant_preserved (s : vl_vector α sc) (h : Valid s) (hI : Inv s) :
    (Valid (default_ctor α sc) ∧ Inv (default_ctor α sc)) ∧
    (∀ xs : List α, ∃ t, range_ctor sc xs = some t ∧ Valid t ∧ Inv t) ∧
    (∀ (n : Nat) (v : α), ∃ t, count_ctor sc n v = some t ∧ Valid t ∧ Inv t) ∧
    (∀ xs : List α, ∃ t, list_ctor sc xs = some t ∧ Valid t ∧ Inv t) ∧
    (∃ t, copy_ctor s = some t ∧ Valid t ∧ Inv t) ∧
    (∀ v, ∃ t, push_back s v = some t ∧ Valid t ∧ Inv t) ∧
    (∃ t, pop_back s = some t ∧ Valid t ∧ Inv t) ∧
    (∀ i v, i ≤ size s → ∃ t, insert s i v = some (t, i) ∧ Valid t ∧ Inv t) ∧
    (∀ i ys, i ≤ size s →
      ((∃ r, insert_range s i ys = some r) ↔
        (i = size s ∨ (ys.length ≤ i + 1 ∧ (ys ≠ [] ∨ size s < capacity s)))) ∧
      ∀ t p, insert_range s i ys = some (t, p) → Valid t ∧ Inv t) ∧
    (∀ i, i < size s → ∃ t, erase s i = some (t, i) ∧ Valid t ∧ Inv t) ∧
    (∀ f l, f ≤ l → l ≤ size s → ∃ t, erase_range s f l = some (t, f) ∧ Valid t ∧ Inv t) ∧
    (Valid (clear s) ∧ Inv (clear s)) ∧
    (∀ src, Valid src → Inv src →
      ∃ t, operator_assign s src false = some (t, src) ∧ Valid t ∧ Inv t) ∧
    operator_assign s s true = some (s, s) := by
  simp only [size, capacity]
  refine ⟨⟨(valid_inv_default α sc).1, (valid_inv_default α sc).2.1⟩, ?_, ?_, ?_, ?_, ?_,
    pop_back_inv s h hI, ?_, ?_, ?_, ?_, ?_, ?_, by simp [operator_assign]⟩
  · intro xs
    by_cases hlen : xs.length ≤ sc
    · obtain ⟨b, eb, vb, ib, -⟩ := of_list_spec sc xs
      exact ⟨b, by rw [range_ctor_short sc xs hlen]; exact eb, vb, ib⟩
    · obtain ⟨a, ea, va, ia, -⟩ := range_ctor_long sc xs (by omega)
      exact ⟨a, ea, va, ia⟩
  · intro n v
    obtain ⟨b, eb, vb, ib, -⟩ := of_list_spec sc (List.replicate n v)
    exact ⟨b, by rw [count_ctor_eq]; exact eb, vb, ib⟩
  · intro xs
    obtain ⟨b, eb, vb, ib, -⟩ := of_list_spec sc xs
    exact ⟨b, by rw [list_ctor_eq]; exact eb, vb, ib⟩
  · obtain ⟨d, e, v, z, c, m, -⟩ := copy_ctor_core s h
    exact ⟨d, e, v, inv_of_fields s d hI z c m⟩
  · intro v
    obtain ⟨s2, e, v2, z, -, k, g⟩ := push_back_step s v h
    exact ⟨s2, e, v2, (inv_after_reserve s s2 1 hI z k g).1⟩
  · intro i v hi
    obtain ⟨s2, e, v2, z, k, g⟩ := insert_step s i v h hi
    exact ⟨s2, e, v2, (inv_after_reserve s s2 1 hI z k g).1⟩
  · intro i ys hi
    refine ⟨insert_range_runs_iff s i ys h hi, fun t p hr => ?_⟩
    obtain ⟨v2, z, k, g⟩ := insert_range_returned s t i p ys h hi hr
    exact ⟨v2, (inv_after_reserve s t ys.length hI z k g).1⟩
  · intro i hi
    obtain ⟨s2, e, v2, z, -, c, m⟩ := erase_range_core s i (i + 1) h (by omega) (by omega)
    exact ⟨s2, by rw [erase_eq_erase_range]; exact e, v2,
      inv_of_shrink s s2 hI (by omega) c m⟩
  · intro f l hfl hl
    obtain ⟨s2, e, v2, z, -, c, m⟩ := erase_range_core s f l h hfl hl
    exact ⟨s2, e, v2, inv_of_shrink s s2 hI (by omega) c m⟩
  · obtain ⟨v, z, m, c⟩ := clear_core s h
    refine ⟨v, by omega, fun _ => c, fun ht => ?_⟩
    rw [m] at ht
    exact absurd ht (by decide)
  · intro src hs his
    obtain ⟨d, e, v, z, c, m, -⟩ := operator_assign_core s src h hs
    exact ⟨d, e, v, inv_of_fields src d his z c m⟩

/-- Witness for C20: `push_back` on a full inline container, and the range
insert of `{8,9}` at its end. -/
theorem invariant_preserved_witness :
    Valid (⟨2, 2, [some 5, some 6], [], false⟩ : vl_vector Nat 2) ∧
    Inv (⟨2, 2, [some 5, some 6], [], false⟩ : vl_vector Nat 2) ∧
    (∃ t, push_back (⟨2, 2, [some 5, some 6], [], false⟩ : vl_vector Nat 2) 7 = some t ∧
      Valid t ∧ Inv t) ∧
    ∃ t p, insert_range (⟨2, 2, [some 5, some 6], [], false⟩ : vl_vector Nat 2) 2 [8, 9]
        = some (t, p) ∧ Valid t ∧ Inv t := by
  refine ⟨by decide, by decide, ?_⟩
  obtain ⟨-, -, -, -, -, hpush, -, -, hrange, -⟩ :=
    invariant_preserved (⟨2, 2, [some 5, some 6], [], false⟩ : vl_vector Nat 2) (by decide)
      (by decide)
  obtain ⟨hiff, hall⟩ := hrange 2 [8, 9] (by decide)
  obtain ⟨⟨t, p⟩, e⟩ := hiff.mpr (Or.inl rfl)
  exact ⟨hpush 7, t, p, e, hall t p e⟩

/-! ## Claims about the capacity policy, the mode invariant and memory safety -/

/-- C21: over the natural numbers, `cap_c (size, k, C)` returns `C` when
`size + k ≤ C` and `(size + k) * 3 / 2` rounded down otherwise; in both cases
the result is at least `size + k`; for `k = 0` and `size ≤ C` it returns `C`. -/
theorem cap_c_spec (sz k C : Nat) :
    (sz + k ≤ C → cap_c sz k C = C) ∧
    (C < sz + k → cap_c sz k C = (sz + k) * 3 / 2) ∧
    sz + k ≤ cap_c sz k C ∧
    (sz ≤ C → cap_c sz 0 C = C) := by
  refine ⟨fun h => by simp [cap_c, h], fun h => ?_, ?_, fun h => by simp [cap_c, h]⟩
  · have : ¬ sz + k ≤ C := by omega
    simp [cap_c, this]
  · unfold cap_c
    split
    · assumption
    · omega

/-- Witness for C21: one more element on a full block of 16, and no element on
a block of 16 holding 9. -/
theorem cap_c_spec_witness :
    (16 < 16 + 1) ∧ cap_c 16 1 16 = 25 ∧ (9 ≤ 16) ∧ cap_c 9 0 16 = 16 :=
  ⟨by decide, (cap_c_spec 16 1 16).2.1 (by decide), by decide,
    (cap_c_spec 9 0 16).2.2.2 (by decide)⟩

/-- C22: every container reachable from the empty container by `push_back`,
`pop_back`, the single `insert` at an offset `i ≤ size` and `clear` is valid and
is in heap mode exactly when its size exceeds `static_capacity`; each of these
operations returns on it and its result is reachable again, so the equivalence
holds after every operation. -/
theorem reachable_mode (s : vl_vector α sc) (hr : Reachable s) :
    (on_heap s = true ↔ sc < size s) ∧ (size s ≤ sc → on_heap s = false) ∧ Valid s ∧
    (∀ v, ∃ t, push_back s v = some t ∧ Reachable t) ∧
    (∃ t, pop_back s = some t ∧ Reachable t) ∧
    (∀ i v, i ≤ size s → ∃ t, insert s i v = some (t, i) ∧ Reachable t) ∧
    Reachable (clear s) := by
  obtain ⟨hv, hi, hm⟩ := reachable_inv s hr
  refine ⟨hm, fun hle => ?_, hv, fun v => ?_, ?_, fun i v hpos => ?_, Reachable.clear hr⟩
  · simp only [size, on_heap] at hle ⊢
    cases hh : s.is_on_heap
    · rfl
    · have := hm.mp hh
      omega
  · obtain ⟨t, et, -⟩ := push_back_step s v hv
    exact ⟨t, et, Reachable.push_back v hr et⟩
  · obtain ⟨t, et, -⟩ := pop_back_step s hv
    exact ⟨t, et, Reachable.pop_back hr et⟩
  · obtain ⟨t, et, -⟩ := insert_step s i v hv hpos
    exact ⟨t, et, Reachable.insert i i v hr hpos et⟩

/-- Witness for C22: three `push_back` calls over two inline slots. -/
theorem reachable_mode_witness :
    Reachable (⟨3, 4, [some 1, some 2], [some 1, some 2, some 3, none], true⟩
      : vl_vector Nat 2) ∧
    (on_heap (⟨3, 4, [some 1, some 2], [some 1, some 2, some 3, none], true⟩
      : vl_vector Nat 2) = true ↔
      2 < size (⟨3, 4, [some 1, some 2], [some 1, some 2, some 3, none], true⟩
        : vl_vector Nat 2)) := by
  have h1 : Reachable (⟨1, 2, [some 1, none], [], false⟩ : vl_vector Nat 2) :=
    Reachable.push_back 1 Reachable.init (by decide)
  have h2 : Reachable (⟨2, 2, [some 1, some 2], [], false⟩ : vl_vector Nat 2) :=
    Reachable.push_back 2 h1 (by decide)
  have h3 : Reachable (⟨3, 4, [some 1, some 2], [some 1, some 2, some 3, none], true⟩
      : vl_vector Nat 2) :=
    Reachable.push_back 3 h2 (by decide)
  exact ⟨h3, (reachable_mode _ h3).1⟩

/-- C23: the range insert does not stay inside the live block.  On `{0,1,2}`
(`static_capacity` 16, capacity 16) the insert of `{7,8}` at offset 0 has no
result: the tail shift reaches `end_i` at slot 1 and reads slot `1 - 2`, before
slot 0.  On the full inline container holding `0..15` the insert of an empty
range at offset 0 has no result either: the tail shift reads and writes slot
16 of a block of 16 slots. -/
theorem insert_range_leaves_block :
    (of_list 16 [0, 1, 2]).map (fun t => (size t, capacity t, decide (Valid t)))
      = some (3, 16, true) ∧
    ((of_list 16 [0, 1, 2]).bind fun t => insert_range t 0 [7, 8]) = none ∧
    (of_list 16 [0, 1, 2]).map (fun t => insert_range_shift 0 2 (size t) (data t))
      = some none ∧
    (∀ blk : Block Nat, insert_range_shift 0 2 1 blk = none) ∧
    (of_list 16 (List.range 16)).map (fun t => (size t, capacity t, decide (Valid t)))
      = some (16, 16, true) ∧
    ((of_list 16 (List.range 16)).bind fun t => insert_range t 0 []) = none :=
  ⟨by decide, by decide, by decide, fun _ => rfl, by decide, by decide⟩

end VlVector
